import Mathlib

/-!
Shallow embedding of the url2epub article-to-EPUB pipeline
(readable distiller, EPUB packager, pipeline controller) and proofs
about its specified properties.

The Go sources embedded here are the current revisions of
`readable.go` (the `Readable` distiller with `FitImage` /
`MinArticleNodes`), `epub.go` (the `Epub` packager), `ziputil`
(`StoreFile` / `WriteFile`) and `cloudrun/rest.go` (`getEpub`).

Calls into the Go standard library and golang.org/x/net are modelled
as explicit oracle parameters (URL parsing/resolution, image fetch,
image decoding, JPEG encoding, content sniffing, noscript HTML
re-parsing, wall-clock time); everything the repository itself
computes is translated directly.
-/

namespace U2E

/-- Go `unicode.IsSpace`: the Unicode White_Space code points. -/
def goIsSpace (c : Char) : Bool :=
  (0x09 ≤ c.toNat && c.toNat ≤ 0x0D) || c.toNat = 0x20 || c.toNat = 0x85 ||
  c.toNat = 0xA0 || c.toNat = 0x1680 || (0x2000 ≤ c.toNat && c.toNat ≤ 0x200A) ||
  c.toNat = 0x2028 || c.toNat = 0x2029 || c.toNat = 0x202F || c.toNat = 0x205F ||
  c.toNat = 0x3000

/-- Models the Go condition `strings.TrimSpace(s) == ""`, which holds exactly
when every character of `s` satisfies `unicode.IsSpace`. -/
def allSpace (s : String) : Bool := s.data.all goIsSpace

/-- ASCII decimal digit test (`\d` of Go regexp, and digits of `%03d`). -/
def isDigitCh (c : Char) : Bool := '0' ≤ c && c ≤ '9'

/-- The character for a single decimal digit. -/
def digitCh (d : Nat) : Char := Char.ofNat (48 + d)

/-- Decimal digits of a positive number, least significant first.
The first argument is fuel (taking `fuel = n` is always enough),
so that the definition is structurally recursive and kernel-computable. -/
def natCharsAux : Nat → Nat → List Char
  | 0, _ => []
  | _, 0 => []
  | fuel + 1, n + 1 => digitCh ((n + 1) % 10) :: natCharsAux fuel ((n + 1) / 10)

/-- Decimal rendering of a natural number, most significant digit first. -/
def natChars (n : Nat) : List Char :=
  if n = 0 then ['0'] else (natCharsAux n n).reverse

/-- Go `fmt.Sprintf("%03d", n)`: decimal rendering left-padded with zeros
to width three. -/
def fmt03 (n : Nat) : String :=
  let s := natChars n
  String.mk (List.replicate (3 - s.length) '0' ++ s)

/-- Numeric value of a single digit character. -/
def chVal (c : Char) : Nat := c.toNat - 48

/-- Value of a digit string, least significant digit first. -/
def ofCharsLE : List Char → Nat
  | [] => 0
  | c :: rest => chVal c + 10 * ofCharsLE rest

/-- Value of a digit string, most significant digit first. -/
def ofCharsBE (l : List Char) : Nat := ofCharsLE l.reverse

theorem chVal_digitCh (d : Nat) (hd : d < 10) : chVal (digitCh d) = d := by
  interval_cases d <;> decide

theorem digitCh_isDigit (d : Nat) (hd : d < 10) : isDigitCh (digitCh d) = true := by
  interval_cases d <;> decide

theorem ofCharsLE_natCharsAux (fuel : Nat) :
    ∀ n, n ≤ fuel → ofCharsLE (natCharsAux fuel n) = n := by
  induction fuel with
  | zero => intro n hn; interval_cases n; simp [natCharsAux, ofCharsLE]
  | succ fuel ih =>
    intro n hn
    match n with
    | 0 => simp [natCharsAux, ofCharsLE]
    | m + 1 =>
      have hdiv : (m + 1) / 10 ≤ fuel := by
        have h1 : (m + 1) / 10 < m + 1 := Nat.div_lt_self (Nat.succ_pos m) (by omega)
        omega
      simp only [natCharsAux, ofCharsLE]
      rw [chVal_digitCh _ (Nat.mod_lt _ (by omega)), ih _ hdiv]
      omega

theorem natCharsAux_digits (fuel : Nat) :
    ∀ n c, c ∈ natCharsAux fuel n → isDigitCh c = true := by
  induction fuel with
  | zero => intro n c hc; simp [natCharsAux] at hc
  | succ fuel ih =>
    intro n c hc
    match n with
    | 0 => simp [natCharsAux] at hc
    | m + 1 =>
      simp only [natCharsAux, List.mem_cons] at hc
      rcases hc with h | h
      · subst h; exact digitCh_isDigit _ (Nat.mod_lt _ (by omega))
      · exact ih _ _ h

theorem natChars_digits (n : Nat) : ∀ c ∈ natChars n, isDigitCh c = true := by
  intro c hc
  unfold natChars at hc
  by_cases h : n = 0
  · simp [h] at hc; subst hc; decide
  · simp [h, List.mem_reverse] at hc
    exact natCharsAux_digits n n c hc

theorem ofCharsBE_natChars (n : Nat) : ofCharsBE (natChars n) = n := by
  unfold natChars ofCharsBE
  by_cases h : n = 0
  · subst h; decide
  · simp [h, List.reverse_reverse]
    exact ofCharsLE_natCharsAux n n le_rfl

theorem ofCharsLE_append_zeros (l : List Char) (k : Nat) :
    ofCharsLE (l ++ List.replicate k '0') = ofCharsLE l := by
  induction l with
  | nil =>
    simp only [List.nil_append]
    induction k with
    | zero => rfl
    | succ k ihk => simp [List.replicate_succ, ofCharsLE, ihk]; decide
  | cons c rest ih => simp [ofCharsLE, ih]

theorem ofCharsBE_pad (l : List Char) (k : Nat) :
    ofCharsBE (List.replicate k '0' ++ l) = ofCharsBE l := by
  unfold ofCharsBE
  rw [List.reverse_append, List.reverse_replicate]
  exact ofCharsLE_append_zeros l.reverse k

theorem fmt03_inj {a b : Nat} (h : fmt03 a = fmt03 b) : a = b := by
  have hd : (fmt03 a).data = (fmt03 b).data := by rw [h]
  unfold fmt03 at hd
  simp only at hd
  have ha : ofCharsBE (List.replicate (3 - (natChars a).length) '0' ++ natChars a) = a := by
    rw [ofCharsBE_pad, ofCharsBE_natChars]
  have hb : ofCharsBE (List.replicate (3 - (natChars b).length) '0' ++ natChars b) = b := by
    rw [ofCharsBE_pad, ofCharsBE_natChars]
  rw [← ha, ← hb, hd]

theorem fmt03_digits (n : Nat) : ∀ c ∈ (fmt03 n).data, isDigitCh c = true := by
  intro c hc
  unfold fmt03 at hc
  simp only [List.mem_append, List.mem_replicate] at hc
  rcases hc with ⟨_, h⟩ | h
  · subst h; decide
  · exact natChars_digits n c h

theorem takeWhile_append_of_all {p : Char → Bool} {xs : List Char} (ys : List Char)
    (h : ∀ c ∈ xs, p c = true) :
    (xs ++ ys).takeWhile p = xs ++ ys.takeWhile p := by
  induction xs with
  | nil => simp
  | cons c rest ih =>
    have hc : p c = true := h c (List.mem_cons_self c rest)
    simp only [List.cons_append, List.takeWhile_cons, hc, if_true]
    rw [ih (fun d hd => h d (List.mem_cons_of_mem c hd))]

theorem takeWhile_stops {p : Char → Bool} {c : Char} (l : List Char)
    (hc : p c = false) : (c :: l).takeWhile p = [] := by
  simp [List.takeWhile_cons, hc]

/-- Shape of the extension strings that can be appended to the `%03d` counter:
either empty or starting with a dot (this is what Go `path.Ext` returns,
and `.jpg` also has this shape). -/
def extOk (e : String) : Prop := e = "" ∨ e.data.head? = some '.'

theorem fmt03_ext_inj {c₁ c₂ : Nat} {e₁ e₂ : String}
    (h₁ : extOk e₁) (h₂ : extOk e₂)
    (h : fmt03 c₁ ++ e₁ = fmt03 c₂ ++ e₂) : c₁ = c₂ := by
  have hdata : (fmt03 c₁).data ++ e₁.data = (fmt03 c₂).data ++ e₂.data := by
    have := congrArg String.data h
    simpa [String.data_append] using this
  have key : ∀ (c : Nat) (e : String), extOk e →
      ((fmt03 c).data ++ e.data).takeWhile isDigitCh = (fmt03 c).data := by
    intro c e he
    rcases he with he | he
    · subst he
      have hnil : ("" : String).data = [] := rfl
      rw [hnil]
      simpa using takeWhile_append_of_all ([] : List Char) (fmt03_digits c)
    · match hm : e.data with
      | [] => simp [hm] at he
      | d :: rest =>
        rw [hm] at he
        simp only [List.head?_cons, Option.some.injEq] at he
        subst he
        rw [takeWhile_append_of_all _ (fmt03_digits c),
            takeWhile_stops _ (by decide)]
        simp
  have h1 := key c₁ e₁ h₁
  have h2 := key c₂ e₂ h₂
  apply fmt03_inj (a := c₁) (b := c₂)
  apply String.ext
  rw [← h1, ← h2, hdata]

/-- Go `path.Ext`: scan the path from the end; the extension starts at the
final dot in the final slash-separated element, empty if there is none.
The first argument is the reversed character list still to scan, the second
the characters already passed (in original order). -/
def pathExtAux : List Char → List Char → String
  | [], _ => ""
  | c :: rest, acc =>
    if c = '.' then String.mk ('.' :: acc)
    else if c = '/' then ""
    else pathExtAux rest (c :: acc)

/-- Go `path.Ext(p)`. -/
def pathExt (p : String) : String := pathExtAux p.data.reverse []

theorem pathExtAux_extOk (l : List Char) :
    ∀ acc, extOk (pathExtAux l acc) := by
  induction l with
  | nil => intro acc; left; rfl
  | cons c rest ih =>
    intro acc
    unfold pathExtAux
    by_cases hc : c = '.'
    · right; simp [hc]
    · by_cases hs : c = '/'
      · left; simp [hc, hs]
      · simpa [hc, hs] using ih (c :: acc)

theorem pathExt_extOk (p : String) : extOk (pathExt p) := pathExtAux_extOk _ _

/-- Go `path.Join(dir, name)` for inputs that are already clean paths
(the only inputs the distiller produces: a configured directory and a
`%03d`-counter file name, neither containing `//`, `.` or `..` elements),
on which `path.Clean` is the identity. -/
def pathJoin (dir name : String) : String :=
  if dir = "" then name else dir ++ "/" ++ name

theorem pathJoin_inj {dir f₁ f₂ : String} (h : pathJoin dir f₁ = pathJoin dir f₂) :
    f₁ = f₂ := by
  unfold pathJoin at h
  by_cases hd : dir = ""
  · simpa [hd] using h
  · simp only [hd, if_false] at h
    have hdata := congrArg String.data h
    simp only [String.data_append, List.append_assoc] at hdata
    have := List.append_cancel_left hdata
    have := List.append_cancel_left this
    exact String.ext this

/-- An HTML attribute: key and value, modelling `html.Attribute`
(the `Namespace` field is never used by this repository). -/
abbrev HAttr := String × String

mutual
/-- Shallow embedding of `golang.org/x/net/html.Node`.

`elem` models `html.ElementNode`: `dataAtom` is the tag name when the
parser recognised the tag as a known atom (`DataAtom ≠ 0`), and `""` when
`DataAtom = 0` (e.g. `amp-img`); `data` is the `Data` field (the tag name).
`text` models `html.TextNode`; `other` models every other node type
(the `default` branches of the Go switches). -/
inductive HNode where
  | text (data : String)
  | elem (dataAtom : String) (data : String) (attrs : List HAttr) (children : HForest)
  | other

/-- Sibling list of `HNode`s (the `FirstChild`/`NextSibling` chain). -/
inductive HForest where
  | nil
  | cons (head : HNode) (tail : HForest)
end

/-- Append a node at the end of a sibling list (`AppendChild` on the list). -/
def HForest.push : HForest → HNode → HForest
  | .nil, x => .cons x .nil
  | .cons c rest, x => .cons c (rest.push x)

/-- Whether a sibling list is empty (`FirstChild == nil`). -/
def HForest.isNil : HForest → Bool
  | .nil => true
  | .cons _ _ => false

/-- Go `node.AppendChild(x)` on an element node. -/
def appendChild : HNode → HNode → HNode
  | .elem da d attrs children, x => .elem da d attrs (children.push x)
  | n, _ => n

/-- The `atoms` whitelist of readable.go: tag → attribute allow-list;
`none` means the tag is not kept. The empty-string tag (Go `DataAtom = 0`)
is not in the map. -/
def atoms (t : String) : Option (List String) :=
  if t = "a" then some ["href"]
  else if t = "abbr" then some ["title"]
  else if t = "acronym" then some ["title"]
  else if t = "html" then some ["lang"]
  else if t = "img" then some ["src", "srcset", "alt"]
  else if t = "source" then some ["src", "srcset", "type"]
  else if t ∈ ["article", "b", "big", "blockquote", "body", "br", "center",
    "cite", "code", "content", "del", "details", "dd", "dfn", "div", "dl",
    "dt", "em", "figure", "figcaption", "footer", "h1", "h2", "h3", "h4",
    "h5", "h6", "head", "header", "i", "li", "main", "mark", "noscript",
    "ol", "p", "picture", "pre", "q", "s", "section", "small", "span",
    "strike", "strong", "sub", "summary", "sup", "table", "tbody", "tfoot",
    "td", "th", "thead", "tr", "time", "title", "u", "ul"] then some []
  else none

/-- The `imgAtoms` set of readable.go. -/
def imgAtoms : List String := ["img", "source"]

/-- The `imgSrcAlternatives` set of readable.go. -/
def imgSrcAlternatives : List String := ["nitro-lazy-src", "data-src"]

/-- The `keepEmptyAtoms` set of readable.go. -/
def keepEmptyAtoms : List String := ["br", "td"]

/-- The `ampAtoms` rewrite of readable.go applied when `DataAtom = 0`:
an element named `amp-img` becomes the `img` atom (both `DataAtom` and
`Data` are updated); any other unknown tag is left as is. -/
def ampRewrite (da d : String) : String × String :=
  if da = "" then
    if d = "amp-img" then ("img", "img") else ("", d)
  else (da, d)

mutual
/-- Go `(*Node).FindFirstAtomNode`: the node itself if it is an element
with the given atom, else the first match in its descendants, depth first. -/
def findFirstAtom (a : String) : HNode → Option HNode
  | .text _ => none
  | .other => none
  | .elem da d attrs children =>
    if da = a then some (.elem da d attrs children)
    else findFirstAtomF a children

/-- Depth-first search over a sibling list. -/
def findFirstAtomF (a : String) : HForest → Option HNode
  | .nil => none
  | .cons c rest =>
    match findFirstAtom a c with
    | some r => some r
    | none => findFirstAtomF a rest
end

/-- Go `(*Node).GetLang`: the `lang` attribute of the first `html` element. -/
def getLang (n : HNode) : String :=
  match findFirstAtom "html" n with
  | some (.elem _ _ attrs _) => (((attrs.find? (fun p => p.1 = "lang")).map (·.2)).getD "")
  | _ => ""

/-- Result of `url.Parse` on a candidate string, combined with resolution
against the caller's base URL (`baseURL.ResolveReference`).

`scheme` is the `Scheme` field of the parsed, not-yet-resolved URL (what
`tryParseImgURL` inspects); `absStr` is `baseURL.ResolveReference(u).String()`
(the deduplication key); `absPath` is `baseURL.ResolveReference(u).Path`
(what the extension is taken from). -/
structure UrlInfo where
  scheme : String
  absStr : String
  absPath : String
deriving DecidableEq, Repr

/-- Oracle for `net/url` parsing plus base resolution: `none` models a
`url.Parse` error. The base URL is fixed per distillation run, so the
combination is a function of the candidate string. -/
abbrev UrlParse := String → Option UrlInfo

/-- The `allowedSrcSchemes` set of readable.go. -/
def allowedSrcSchemes : List String := ["", "https", "http"]

/-- Go `tryParseImgURL`: parse, and keep only URLs whose scheme is allowed. -/
def tryParseImgURL (parse : UrlParse) (s : String) : Option UrlInfo :=
  match parse s with
  | some u => if allowedSrcSchemes.contains u.scheme then some u else none
  | none => none

/-- Go `strings.Split(s, ",")` (auxiliary: remaining characters and the
current chunk accumulated in reverse). -/
def splitCommaAux : List Char → List Char → List String
  | [], acc => [String.mk acc.reverse]
  | c :: rest, acc =>
    if c = ',' then String.mk acc.reverse :: splitCommaAux rest []
    else splitCommaAux rest (c :: acc)

/-- Go `strings.Split(s, ",")`; in particular `goSplitComma "" = [""]`. -/
def goSplitComma (s : String) : List String := splitCommaAux s.data []

/-- The character class `\s` of Go regexp (RE2 Perl class): tab, newline,
form feed, carriage return, space. -/
def reWS (c : Char) : Bool :=
  c = '\t' || c = '\n' || c.toNat = 0x0C || c.toNat = 0x0D || c = ' '

/-- Matcher for the optional group `(?: (\d+)w)?` of `srcsetRE` at the
remainder `rest`: requires a space, a nonempty maximal digit run, then `w`
(a shorter digit run would be followed by a digit, never by `w`, so the
greedy run is the only candidate). Returns the digits and the tail. -/
def tryWidth : List Char → Option (List Char × List Char)
  | ' ' :: rest =>
    let ds := rest.takeWhile isDigitCh
    match rest.dropWhile isDigitCh with
    | 'w' :: tail => if ds.isEmpty then none else some (ds, tail)
    | _ => none
  | _ => none

/-- Backtracking core for `srcsetRE` after the leading `\s*`: `b` is the
text matched so far by the lazy `(.+?)` (nonempty), `rest` the remainder.
Preference order of RE2 on this pattern: keep `(.+?)` as short as possible;
at each length first try the optional width group, then an all-whitespace
tail, then extend `(.+?)` by one more character (`.` never matches a
newline). Returns (group 1, group 2). -/
def matchBody (b : List Char) : List Char → Option (List Char × List Char)
  | [] => some (b, [])
  | c :: rest =>
    match tryWidth (c :: rest) with
    | some (ds, tail) =>
      if tail.all reWS then some (b, ds)
      else if (c :: rest).all reWS then some (b, [])
      else if c = '\n' then none else matchBody (b ++ [c]) rest
    | none =>
      if (c :: rest).all reWS then some (b, [])
      else if c = '\n' then none else matchBody (b ++ [c]) rest

/-- Try to match with the leading `\s*` consuming everything before `rest`;
the first character of `rest` starts the lazy `(.+?)`. -/
def tryFromA : List Char → Option (List Char × List Char)
  | [] => none
  | c :: rest => if c = '\n' then none else matchBody [c] rest

/-- Backtrack the leading `\s*` from `a` whitespace characters down to 0. -/
def srcsetTryA : Nat → List Char → Option (List Char × List Char)
  | 0, s => tryFromA s
  | a + 1, s =>
    match tryFromA (s.drop (a + 1)) with
    | some r => some r
    | none => srcsetTryA a s

/-- Go `srcsetRE.FindStringSubmatch(s)` for
`^\s*(.+?)(?: (\d+)w)?\s*$`: `none` when there is no match, otherwise
(group 1, group 2) where group 2 is `""` when the width group is absent. -/
def srcsetGroups (s : String) : Option (String × String) :=
  let cs := s.data
  match srcsetTryA (cs.takeWhile reWS).length cs with
  | some (b, ds) => some (String.mk b, String.mk ds)
  | none => none

/-- Go `strconv.ParseInt(ds, 10, 64)` as used on group 2 of `srcsetRE`
(`width, _ := ...`): empty string parses-with-error to 0; a digit string
yields its value, clamped to `MaxInt64` on range error. -/
def goParseWidth (ds : String) : Int :=
  if ds = "" then 0
  else min (Int.ofNat (ofCharsBE ds.data)) (2 ^ 63 - 1)

/-- One step of the `tryParseImgSrcset` loop state: (maxWidth, maxURL). -/
def srcsetStep (parse : UrlParse) (st : Int × Option UrlInfo) (item : String) :
    Int × Option UrlInfo :=
  match srcsetGroups item with
  | none => st
  | some (g1, g2) =>
    let width := goParseWidth g2
    if width > st.1 then
      match tryParseImgURL parse g1 with
      | none => st
      | some u => (width, some u)
    else st

/-- Go `tryParseImgSrcset`: split on comma, keep the highest-width
parseable item, first seen wins ties. -/
def tryParseImgSrcset (parse : UrlParse) (s : String) : Option UrlInfo :=
  ((goSplitComma s).foldl (srcsetStep parse) (-1, none)).2

/-- Go `node.Attr[i].Val` (indices produced by the attribute scan are
always in range). -/
def attrVal (attrs : List HAttr) (i : Nat) : String :=
  ((attrs.get? i).getD ("", "")).2

/-- The loop over `srcIndices` in Go `findSrcURLFromIMGNode`
(`none` models a `-1` index, which is skipped). -/
def findSrcLoop (parse : UrlParse) (attrs : List HAttr) :
    List (Option Nat) → Option UrlInfo
  | [] => none
  | none :: rest => findSrcLoop parse attrs rest
  | some i :: rest =>
    match tryParseImgURL parse (attrVal attrs i) with
    | some u => some u
    | none => findSrcLoop parse attrs rest

/-- Go `findSrcURLFromIMGNode`. -/
def findSrcURLFromIMGNode (parse : UrlParse) (attrs : List HAttr)
    (srcIndices : List (Option Nat)) (srcsetIndex : Option Nat) : Option UrlInfo :=
  match findSrcLoop parse attrs srcIndices with
  | some u => some u
  | none =>
    match srcsetIndex with
    | none => none
    | some i => tryParseImgSrcset parse (attrVal attrs i)

/-- Oracles for the standard-library / external effects of the distiller:
URL parsing (with base resolution), `html.Parse` of a noscript text child
followed by `FindFirstAtomNode(atom.Img)` (giving the attribute list of the
first `img` element, or `none`), image HTTP fetch (`none` models a failed
download), `grayscale.FromReader` decoding (`none` models a decode error;
the buffered original bytes are the fetched bytes), `grayscale.Downscale`,
`grayscale.ToJPEG`, and `time.Now().Format(time.RFC3339)`. -/
structure Oracles where
  parse : UrlParse
  noscriptImg : String → Option (List HAttr)
  fetch : String → Option (List Nat)
  fromReaderImg : List Nat → Option Nat
  downscale : Nat → Int → Nat
  toJPEG : Nat → Option (List Nat)
  now : String

/-- The fixed arguments threaded through `readableRecursive`. -/
structure RParams where
  O : Oracles
  imagesDir : String
  gray : Bool
  fit : Int

/-- Go `downloadImage` (readable.go): the final value of the `*io.Reader`
destination cell; `none` means the cell was never assigned (download error).
On a grayscale decode or JPEG-encode error the original buffered bytes are
assigned (`*dest = orig`); `grayscale.FromReader` tees the whole body, so
the buffered original equals the fetched bytes. -/
def downloadImage (O : Oracles) (gray : Bool) (fit : Int) (src : String) :
    Option (List Nat) :=
  match O.fetch src with
  | none => none
  | some body =>
    if gray = false then some body
    else
      match O.fromReaderImg body with
      | none => some body
      | some img =>
        match O.toJPEG (O.downscale img fit) with
        | none => some body
        | some jp => some jp

/-- The mutable distillation state of `Readable`: the `imgCounter`, the
`imgMapping` map (association list in insertion order: absolute source URL
→ local filename) and the `images` map of `*io.Reader` cells (association
list in insertion order: local filename → final cell value). -/
structure RState where
  counter : Nat
  mapping : List (String × String)
  manifest : List (String × Option (List Nat))

/-- Go map lookup on an association list built with distinct keys. -/
def lookupA {β : Type} (l : List (String × β)) (k : String) : Option β :=
  (l.find? (fun p => p.1 = k)).map (·.2)

/-- Result of the attribute-filtering loop of `readableRecursive`:
the kept attributes and the recorded `srcIndex` / `srcsetIndex` /
`altSrcIndices` (`none` models `-1`). -/
structure AttrScan where
  attrs : List HAttr
  srcIdx : Option Nat
  srcsetIdx : Option Nat
  altIdxs : List Nat

/-- One iteration of the attribute-filtering loop: `i := len(newNode.Attr)`;
keys in `imgSrcAlternatives` (on an `img` element) are recorded as
alternative sources and copied; other keys are copied only when in the
allow-set; `srcIndex` / `srcsetIndex` remember the positions of `src` /
`srcset` among the copied attributes. -/
def scanStep (isImg : Bool) (allow : List String) (st : AttrScan) (attr : HAttr) :
    AttrScan :=
  let i := st.attrs.length
  let isAlt := isImg && imgSrcAlternatives.contains attr.1
  if isAlt || allow.contains attr.1 then
    { attrs := st.attrs ++ [attr]
      srcIdx := if attr.1 = "src" then some i else st.srcIdx
      srcsetIdx := if attr.1 = "srcset" then some i else st.srcsetIdx
      altIdxs := if isAlt then st.altIdxs ++ [i] else st.altIdxs }
  else st

/-- The attribute-filtering loop of `readableRecursive`. -/
def scanAttrs (isImg : Bool) (allow : List String) (attrs : List HAttr) : AttrScan :=
  attrs.foldl (scanStep isImg allow) ⟨[], none, none, []⟩

/-- Go `newNode.Attr[i].Val = v` (in-place value update). -/
def setAttrVal (l : List HAttr) (i : Nat) (v : String) : List HAttr :=
  match l.get? i with
  | some a => l.set i (a.1, v)
  | none => l

/-- Go `newNode.Attr = append(newNode.Attr[:i], newNode.Attr[i+1:]...)`
removing the `srcset` attribute when present. -/
def removeSrcset (l : List HAttr) : Option Nat → List HAttr
  | none => l
  | some i => l.take i ++ l.drop (i + 1)

/-- The image-handling block of `readableRecursive` (executed when the
rewritten atom is in `imgAtoms`): the node is rewritten to `img`; a source
URL is chosen from `src`, the alternative keys, then `srcset`; without a
usable URL the node is dropped; otherwise the (base-resolved) URL string is
deduplicated through `imgMapping`, allocating a fresh `%03d` filename and
scheduling a download on first sight; the chosen filename becomes the `src`
value (a `src` attribute is appended first if absent) and any `srcset`
attribute is removed. The emitted `img` never receives children. -/
def handleImg (P : RParams) (sc : AttrScan) (st : RState) :
    Option HNode × RState :=
  match findSrcURLFromIMGNode P.O.parse sc.attrs (sc.srcIdx :: sc.altIdxs.map some)
      sc.srcsetIdx with
  | none => (none, st)
  | some u =>
    let src := u.absStr
    let (attrs1, srcIdx) :=
      match sc.srcIdx with
      | some i => (sc.attrs, i)
      | none => (sc.attrs ++ [("src", "")], sc.attrs.length)
    match lookupA st.mapping src with
    | some filename =>
      (some (.elem "img" "img" (removeSrcset (setAttrVal attrs1 srcIdx filename)
        sc.srcsetIdx) .nil), st)
    | none =>
      let c := st.counter + 1
      let ext := if P.gray then ".jpg" else pathExt u.absPath
      let filename := pathJoin P.imagesDir (fmt03 c ++ ext)
      (some (.elem "img" "img" (removeSrcset (setAttrVal attrs1 srcIdx filename)
        sc.srcsetIdx) .nil),
       ⟨c, st.mapping ++ [(src, filename)],
        st.manifest ++ [(filename, downloadImage P.O P.gray P.fit src)]⟩)

/-- The attribute allow-set of `img` (`atoms "img"`). -/
def imgAllow : List String := ["src", "srcset", "alt"]

/-- Processing of the `img` element recovered from a noscript text child:
the shared element path of `readableRecursive` specialised to an `img`
node (whose atom is always in the whitelist and in `imgAtoms`, so control
always reaches the image-handling block, and children are never visited). -/
def handleNoscriptImg (P : RParams) (attrs : List HAttr) (st : RState) :
    Option HNode × RState :=
  handleImg P (scanAttrs true imgAllow attrs) st

mutual
/-- Go `readableRecursive` (readable.go), with the context-cancellation
check omitted (this embedding models non-cancelled runs; the only effect
of cancellation is an early error return). -/
def readableRecursive (P : RParams) : HNode → RState → Option HNode × RState
  | .other, st => (none, st)
  | .text d, st =>
    if allSpace d then (none, st) else (some (.text d), st)
  | .elem da0 data0 attrs0 children, st =>
    if da0 = "noscript" then
      match children with
      | .cons (.text s) .nil =>
        match P.O.noscriptImg s with
        | some imgAttrs => handleNoscriptImg P imgAttrs st
        | none => (none, st)
      | _ => (none, st)
    else
      match ampRewrite da0 data0 with
      | (da, d) =>
        match atoms da with
        | none => (none, st)
        | some allow =>
          let sc := scanAttrs (da = "img") allow attrs0
          if imgAtoms.contains da then handleImg P sc st
          else
            match readableForest P children st with
            | (newChildren, st2) =>
              if sc.attrs.isEmpty && newChildren.isNil &&
                  !(keepEmptyAtoms.contains da) then (none, st2)
              else (some (.elem da d sc.attrs newChildren), st2)

/-- The child loop of `readableRecursive`: recurse into each child in
order, appending the non-nil results. -/
def readableForest (P : RParams) : HForest → RState → HForest × RState
  | .nil, st => (.nil, st)
  | .cons c rest, st =>
    match readableRecursive P c st with
    | (child?, st1) =>
      match readableForest P rest st1 with
      | (newRest, st2) =>
        match child? with
        | none => (newRest, st2)
        | some child => (.cons child newRest, st2)
end

/-- Go `readableRecursive` on a possibly-nil receiver. -/
def readableRecOpt (P : RParams) : Option HNode → RState → Option HNode × RState
  | none, st => (none, st)
  | some n, st => readableRecursive P n st

mutual
/-- Go `countRecursive` (readable.go): counts whitelisted element and
non-whitespace text nodes, short-circuiting once the running minimum is
reached (`hasMin`). -/
def countRecursive : HNode → Int → Int × Bool
  | .other, _ => (0, false)
  | .text d, m =>
    if allSpace d then (0, false)
    else if m ≤ 1 then (0, true)
    else (1, false)
  | .elem da _ _ children, m =>
    match atoms da with
    | none => (0, false)
    | some _ =>
      if m - 1 ≤ 0 then (0, true)
      else countForest children 1 (m - 1)

/-- The child loop of `countRecursive`: `count` is the accumulated count
(starting from 1 for the element itself), `m` the remaining minimum. -/
def countForest : HForest → Int → Int → Int × Bool
  | .nil, count, _ => (count, false)
  | .cons c rest, count, m =>
    match countRecursive c m with
    | (_, true) => (0, true)
    | (sub, false) =>
      if m - sub ≤ 0 then (count + sub, false)
      else countForest rest (count + sub) (m - sub)
end

/-- Go `countRecursive` on a possibly-nil receiver. -/
def countRecOpt : Option HNode → Int → Int × Bool
  | none, _ => (0, false)
  | some n, m => countRecursive n m

/-- The `ReadableArgs` record (readable.go): the base URL is carried as its
`String()` form (`none` models a nil `BaseURL`, whose only direct use in
`Readable` is the nil check around the `generated-from` marker; resolution
against it is part of the `parse` oracle). -/
structure RArgs where
  baseURL : Option String
  imagesDir : String
  gray : Bool
  fit : Int
  minArticleNodes : Int

/-- An injected `<meta itemprop="...">` provenance marker. -/
def metaNode (v : String) : HNode :=
  .elem "meta" "meta" [("itemprop", v)] .nil

/-- Everything a run of Go `Readable` produces: the returned root (nil on
error paths), the returned images map (filename → bytes, with never-assigned
cells converted to empty readers), the returned error, and the final
internal distillation state (counter, `imgMapping`, raw `images` cells),
exposed for the statements below. -/
structure RFull where
  node : Option HNode
  images : List (String × List Nat)
  err : Option String
  state : RState

/-- The tail of `Readable` once the body is determined: build the root
`html` element (with the source document's `lang` if any), wait for the
downloads and convert never-assigned reader cells to empty readers. -/
def readableFinish (n head body : HNode) (st : RState) : RFull :=
  let lang := getLang n
  let rootAttrs : List HAttr := if lang ≠ "" then [("lang", lang)] else []
  let root := HNode.elem "html" "html" rootAttrs (.cons head (.cons body .nil))
  ⟨some root, st.manifest.map (fun p => (p.1, p.2.getD [])), none, st⟩

/-- Head construction of `Readable`: the distilled head (or a fresh empty
one) with the provenance markers appended: `generated-by`, `generated-at`,
and — when the base URL is not nil — `generated-from`. -/
def headWithMetas (O : Oracles) (baseURL : Option String)
    (head? : Option HNode) : HNode :=
  let head0 := head?.getD (.elem "head" "head" [] .nil)
  let head1 := appendChild head0 (metaNode
    "generated-by: https://pkg.go.dev/go.yhsif.com/url2epub#Node.Readable")
  let head2 := appendChild head1 (metaNode ("generated-at: " ++ O.now))
  match baseURL with
  | some b => appendChild head2 (metaNode ("generated-from: " ++ b))
  | none => head2

/-- Article selection of `Readable`: the first `article` element, unless a
positive `MinArticleNodes` is configured and `countRecursive` does not
reach it. -/
def pickArticle (n : HNode) (minArticleNodes : Int) : Option HNode :=
  let articleNode0 := findFirstAtom "article" n
  if articleNode0.isSome && decide (minArticleNodes > 0) then
    if (countRecOpt articleNode0 minArticleNodes).2 then articleNode0
    else none
  else articleNode0

/-- Go `(*Node).Readable` (readable.go): distill the head, inject the three
provenance markers, pick the first qualifying article (falling back to the
body), and assemble the readable tree; fails with "no body tag found" when
neither an article nor a distillable body exists. -/
def readableFull (O : Oracles) (n : HNode) (args : RArgs) : RFull :=
  let P : RParams := ⟨O, args.imagesDir, args.gray, args.fit⟩
  let st0 : RState := ⟨0, [], []⟩
  match readableRecOpt P (findFirstAtom "head" n) st0 with
  | (head?, st1) =>
    let head3 := headWithMetas O args.baseURL head?
    match readableRecOpt P (pickArticle n args.minArticleNodes) st1 with
    | (article?, st2) =>
      match article? with
      | none =>
        match readableRecOpt P (findFirstAtom "body" n) st2 with
        | (none, st3) => ⟨none, [], some "no body tag found", st3⟩
        | (some body, st3) => readableFinish n head3 body st3
      | some article =>
        readableFinish n head3
          (.elem "body" "body" [] (.cons article .nil)) st2

/-- The `EpubMimeType` constant (epub.go). -/
def EpubMimeType : String := "application/epub+zip"

/-- The `epubContainerContent` constant (epub.go). -/
def epubContainerContent : String :=
  "<?xml version=\"1.0\"?>\n<container xmlns=\"urn:oasis:names:tc:opendocument:xmlns:container\" version=\"1.0\">\n <rootfiles>\n  <rootfile full-path=\"content/content.opf\" media-type=\"application/oebps-package+xml\"/>\n </rootfiles>\n</container>\n"

/-- ZIP compression method of an entry (`zip.Store` / `zip.Deflate`). -/
inductive ZMethod where
  | store
  | deflate
deriving DecidableEq, Repr

/-- The data handed to the OPF and nav templates (`epubOpfData`). -/
structure OpfData where
  id : String
  title : String
  author : String
  lang : String
  timeStr : String
  articlePath : String
  navPath : String
  images : List (String × String)

/-- Payload written for a ZIP entry, kept structured: a literal string
(`ziputil.StringWriterTo`), the rendered readable tree (`html.Render` via
`ziputil.WriterToWrapper`), raw image bytes, or a template rendering of the
nav / OPF documents over their data. -/
inductive ZPayload where
  | strSrc (s : String)
  | htmlSrc (n : HNode)
  | bytesSrc (b : List Nat)
  | navSrc (d : OpfData)
  | opfSrc (d : OpfData)

/-- One ZIP entry as produced through `zip.Writer.CreateHeader`. -/
structure ZipEntry where
  name : String
  method : ZMethod
  payload : ZPayload

/-- Go `ziputil.StoreFile`: write one file with the Store method. -/
def storeFile (name : String) (p : ZPayload) : ZipEntry := ⟨name, .store, p⟩

/-- Go `ziputil.WriteFile`: write one file with the Deflate method. -/
def writeFile (name : String) (p : ZPayload) : ZipEntry := ⟨name, .deflate, p⟩

/-- Go `html.EscapeString`: escapes `&`, `'`, `<`, `>`, `"`. -/
def escCh (c : Char) : List Char :=
  if c = '&' then "&amp;".data
  else if c.toNat = 39 then "&#39;".data
  else if c = '<' then "&lt;".data
  else if c = '>' then "&gt;".data
  else if c.toNat = 34 then "&#34;".data
  else [c]

/-- Go `html.EscapeString`. -/
def escapeString (s : String) : String := String.mk (s.data.map escCh).flatten

mutual
/-- Go `firstHTMLNode` combined with the in-place attribute prepend of
`wrapEpubXMLnsNode`: returns the tree with `xmlns` prepended onto the
attributes of the first `html` element (depth first), or `none` when the
tree has no `html` element. -/
def wrapHtmlN : HNode → Option HNode
  | .elem da d attrs children =>
    if da = "html" then
      some (.elem da d (("xmlns", "http://www.w3.org/1999/xhtml") :: attrs) children)
    else
      match wrapHtmlF children with
      | some children2 => some (.elem da d attrs children2)
      | none => none
  | _ => none

/-- Depth-first search part of `firstHTMLNode` over a sibling list. -/
def wrapHtmlF : HForest → Option HForest
  | .nil => none
  | .cons c rest =>
    match wrapHtmlN c with
    | some c2 => some (.cons c2 rest)
    | none =>
      match wrapHtmlF rest with
      | some rest2 => some (.cons c rest2)
      | none => none
end

/-- Go `wrapEpubXMLnsNode`: the root is returned unchanged when no `html`
element exists. -/
def wrapEpubXMLnsNode (n : HNode) : HNode := (wrapHtmlN n).getD n

/-- The `EpubArgs` record (epub.go) with the images map carried as an
association list whose order is the Go map iteration order of the
`for f, reader := range args.Images` loop — unspecified and not
reproducible between runs, hence an explicit input of the model. -/
structure EpubArgsM where
  title : String
  author : String
  node : HNode
  overrideLang : String
  images : List (String × List Nat)

/-- Go `Epub` (epub.go) as the ordered sequence of ZIP entries it writes:
`mimetype` (Store), `META-INF/container.xml`, `content/article.xhtml`,
one entry per image in map-iteration order, `content/nav.xhtml`, and
`content/content.opf`. `detect` models `http.DetectContentType` on the
first ≤ 512 payload bytes, `uuid` the generated random identifier, and
`timeStr` `time.Now().UTC().Format(time.RFC3339)`. -/
def epubEntries (detect : List Nat → String) (uuid timeStr : String)
    (args : EpubArgsM) : List ZipEntry :=
  let lang0 := if args.overrideLang = "" then getLang args.node else args.overrideLang
  let lang1 := escapeString lang0
  let data : OpfData :=
    { id := escapeString uuid
      title := escapeString args.title
      author := escapeString args.author
      lang := if lang1 = "" then "en" else lang1
      timeStr := timeStr
      articlePath := "article.xhtml"
      navPath := "nav.xhtml"
      images := args.images.map (fun p => (p.1, detect p.2)) }
  storeFile "mimetype" (.strSrc EpubMimeType) ::
  writeFile "META-INF/container.xml" (.strSrc epubContainerContent) ::
  writeFile (pathJoin "content" "article.xhtml")
    (.htmlSrc (wrapEpubXMLnsNode args.node)) ::
  (args.images.map (fun p =>
    writeFile (pathJoin "content" p.1) (.bytesSrc p.2)) ++
   [writeFile (pathJoin "content" "nav.xhtml") (.navSrc data),
    writeFile "content/content.opf" (.opfSrc data)])

/-- The error kinds `getEpub` (cloudrun/rest.go) can return. -/
inductive GErr where
  | fetchErr (url : String)
  | readableWrap (e : String)
  | unsupportedURL (url : String)
deriving DecidableEq, Repr

/-- Go `getEpub` (cloudrun/rest.go): fetch the page, distill it with
`ImagesDir = "images"` and `MinArticleNodes = 20`, return `UnsupportedURL`
when the distilled node is nil without an error, and otherwise package the
EPUB. `fetchHTML` models the `GetHTML` call (`none` = fetch/parse error);
`titleOf` / `authorOf` model `root.GetTitle()` / `root.GetAuthor()`;
on success the result is (id, title, ZIP entries). -/
def getEpubM (O : Oracles) (detect : List Nat → String) (uuid : String)
    (titleOf authorOf : HNode → String)
    (fetchHTML : Option (HNode × String)) (url lang : String)
    (gray : Bool) (fit : Int) :
    Except GErr (String × String × List ZipEntry) :=
  match fetchHTML with
  | none => .error (.fetchErr url)
  | some (root, baseURL) =>
    match readableFull O root ⟨some baseURL, "images", gray, fit, 20⟩ with
    | ⟨node?, images, err?, _⟩ =>
      match err? with
      | some e => .error (.readableWrap e)
      | none =>
        match node? with
        | none => .error (.unsupportedURL url)
        | some node =>
          let title := titleOf root
          .ok (uuid, title,
            epubEntries detect uuid O.now
              ⟨title, authorOf root, node, lang, images⟩)

/-- Whether an `Except` result is a success (the packager ran and produced
entries). -/
def exceptOk {ε α : Type} : Except ε α → Bool
  | .ok _ => true
  | .error _ => false

/-! ### C3: the mimetype entry -/

/-- C3: For every produced EPUB byte stream, the first ZIP entry is named
`mimetype`, is written with the Store (no-compression) method, and its
payload is exactly the literal string `application/epub+zip`; moreover
every other entry uses Deflate. -/
theorem C3_mimetype_entry (detect : List Nat → String) (uuid timeStr : String)
    (args : EpubArgsM) :
    (epubEntries detect uuid timeStr args).head? =
      some (storeFile "mimetype" (.strSrc "application/epub+zip")) ∧
    ((epubEntries detect uuid timeStr args).tail.all
      (fun e => e.method = ZMethod.deflate)) = true := by
  constructor
  · rfl
  · simp [epubEntries, writeFile, storeFile, List.all_append]
    rintro x a b _ rfl
    rfl

/-! ### C4: entry order and map iteration -/

/-- A fixed readable tree for the C4 counterexample. -/
def c4node : HNode :=
  .elem "html" "html" [] (.cons (.elem "body" "body" [] .nil) .nil)

/-- Two iteration orders of the same two-image manifest map. -/
def c4imgs1 : List (String × List Nat) :=
  [("images/001.png", [1]), ("images/002.png", [2])]

/-- The same map as `c4imgs1`, iterated in the other order. -/
def c4imgs2 : List (String × List Nat) :=
  [("images/002.png", [2]), ("images/001.png", [1])]

/-- C4 counterexample: the packager writes the image entries in the order
the `for f, reader := range args.Images` loop yields them; two iteration
orders of the same images map (Go map iteration order is unspecified and
varies between runs) produce different ZIP entry sequences, so the entry
sequence is not determined by the packager inputs. -/
theorem C4_counterexample :
    c4imgs1.Perm c4imgs2 ∧
    (epubEntries (fun _ => "image/png") "u" "t"
        ⟨"T", "A", c4node, "", c4imgs1⟩).map (fun e => e.name) ≠
      (epubEntries (fun _ => "image/png") "u" "t"
        ⟨"T", "A", c4node, "", c4imgs2⟩).map (fun e => e.name) := by
  constructor
  · decide
  · intro h
    have : (["mimetype", "META-INF/container.xml", "content/article.xhtml",
        "content/images/001.png", "content/images/002.png",
        "content/nav.xhtml", "content/content.opf"] : List String) =
        ["mimetype", "META-INF/container.xml", "content/article.xhtml",
        "content/images/002.png", "content/images/001.png",
        "content/nav.xhtml", "content/content.opf"] := h
    simp at this

/-- C4 as amended: for fixed packager inputs the entry sequence is always
the fixed skeleton `mimetype` (Store), `META-INF/container.xml`,
`content/article.xhtml`, then exactly one Deflate entry per manifest image,
then `content/nav.xhtml` and `content/content.opf`; but the relative order
of the image entries follows the Go map iteration order, so across runs
only the multiset of entry names — not the entry sequence — is determined. -/
theorem C4_amended_layout (detect : List Nat → String) (uuid timeStr : String)
    (title author lang : String) (node : HNode)
    (l1 l2 : List (String × List Nat)) (h : l1.Perm l2) :
    (epubEntries detect uuid timeStr ⟨title, author, node, lang, l1⟩).map
        (fun e => (e.name, e.method)) =
      ("mimetype", ZMethod.store) :: ("META-INF/container.xml", ZMethod.deflate) ::
      ("content/article.xhtml", ZMethod.deflate) ::
      (l1.map (fun p => (pathJoin "content" p.1, ZMethod.deflate)) ++
       [("content/nav.xhtml", ZMethod.deflate),
        ("content/content.opf", ZMethod.deflate)]) ∧
    ((epubEntries detect uuid timeStr ⟨title, author, node, lang, l1⟩).map
        (fun e => e.name)).Perm
      ((epubEntries detect uuid timeStr ⟨title, author, node, lang, l2⟩).map
        (fun e => e.name)) := by
  constructor
  · simp only [epubEntries, List.map_cons, List.map_append, List.map_map]
    rfl
  · simp only [epubEntries, List.map_cons, List.map_append, List.map_map]
    exact .cons _ (.cons _ (.cons _ ((h.map _).append (.refl _))))

/-- C4 amended, witnessed at a concrete permutation of a two-image map. -/
theorem C4_amended_layout_witness :
    ((epubEntries (fun _ => "image/png") "u" "t"
        ⟨"T", "A", c4node, "", c4imgs1⟩).map (fun e => e.name)).Perm
      ((epubEntries (fun _ => "image/png") "u" "t"
        ⟨"T", "A", c4node, "", c4imgs2⟩).map (fun e => e.name)) :=
  (C4_amended_layout (fun _ => "image/png") "u" "t" "T" "A" "" c4node
    c4imgs1 c4imgs2 (by decide)).2

/-! ### C5: srcset parsing -/

/-- Claim-side (following the spec wording): regex-match and URL-parse one
comma-separated srcset item, yielding (URL, width); a missing width
descriptor counts as width 0, and items that do not regex-match, do not
URL-parse, or have a disallowed scheme are skipped. -/
def itemParsed (parse : UrlParse) (item : String) : Option (UrlInfo × Int) :=
  match srcsetGroups item with
  | none => none
  | some (g1, g2) =>
    match tryParseImgURL parse g1 with
    | none => none
    | some u => some (u, goParseWidth g2)

/-- Claim-side: the accepted (URL, width) items of a srcset string. -/
def srcsetParsedItems (parse : UrlParse) (s : String) : List (UrlInfo × Int) :=
  (goSplitComma s).filterMap (itemParsed parse)

/-- Largest width of the accepted items (-1 when there are none). -/
def maxWidthOf (l : List (UrlInfo × Int)) : Int :=
  l.foldl (fun a p => max a p.2) (-1)

/-- Claim-side: the URL of the first accepted item achieving the largest
width descriptor (ties broken in favor of the first-seen item). -/
def pickMaxFirst (l : List (UrlInfo × Int)) : Option UrlInfo :=
  (l.find? (fun p => p.2 = maxWidthOf l)).map (·.1)

/-- The srcset fold restricted to accepted items. -/
def pStep (st : Int × Option UrlInfo) (p : UrlInfo × Int) : Int × Option UrlInfo :=
  if p.2 > st.1 then (p.2, some p.1) else st

theorem srcsetStep_eq_pStep (parse : UrlParse) (st : Int × Option UrlInfo)
    (item : String) :
    srcsetStep parse st item =
      match itemParsed parse item with
      | none => st
      | some p => pStep st p := by
  unfold srcsetStep itemParsed
  match hg : srcsetGroups item with
  | none => rfl
  | some (g1, g2) =>
    match hp : tryParseImgURL parse g1 with
    | none => by_cases hw : goParseWidth g2 > st.1 <;> simp [hw, hp]
    | some u =>
      unfold pStep
      by_cases hw : goParseWidth g2 > st.1 <;> simp [hw, hp]

theorem foldl_srcsetStep (parse : UrlParse) (items : List String) :
    ∀ st, items.foldl (srcsetStep parse) st =
      (items.filterMap (itemParsed parse)).foldl pStep st := by
  induction items with
  | nil => intro st; rfl
  | cons item rest ih =>
    intro st
    rw [List.foldl_cons, srcsetStep_eq_pStep, List.filterMap_cons]
    match itemParsed parse item with
    | none => exact ih st
    | some p => rw [List.foldl_cons]; exact ih (pStep st p)

theorem le_foldl_max (l : List (UrlInfo × Int)) :
    ∀ b : Int, b ≤ l.foldl (fun a p => max a p.2) b := by
  induction l with
  | nil => intro b; exact le_rfl
  | cons p rest ih =>
    intro b
    calc b ≤ max b p.2 := le_max_left _ _
    _ ≤ _ := ih _

theorem mem_le_foldl_max (l : List (UrlInfo × Int)) :
    ∀ (b : Int), ∀ p ∈ l, p.2 ≤ l.foldl (fun a p => max a p.2) b := by
  induction l with
  | nil => intro b p hp; simp at hp
  | cons q rest ih =>
    intro b p hp
    rcases List.mem_cons.mp hp with h | h
    · subst h
      calc p.2 ≤ max b p.2 := le_max_right _ _
      _ ≤ _ := le_foldl_max rest _
    · exact ih _ p h

theorem foldl_pStep_spec (l : List (UrlInfo × Int)) :
    ∀ (w : Int) (u : Option UrlInfo),
      (l.foldl pStep (w, u)).2 =
        if l.foldl (fun a p => max a p.2) w > w
        then (l.find? (fun p => p.2 = l.foldl (fun a p => max a p.2) w)).map (·.1)
        else u := by
  induction l with
  | nil =>
    intro w u
    simp
  | cons p rest ih =>
    intro w u
    rw [List.foldl_cons, List.foldl_cons]
    by_cases hp : p.2 > w
    · have hstep : pStep (w, u) p = (p.2, some p.1) := by simp [pStep, hp]
      have hmax : max w p.2 = p.2 := max_eq_right (le_of_lt hp)
      rw [hstep, ih, hmax]
      set M := rest.foldl (fun a p => max a p.2) p.2 with hM
      have hMge : p.2 ≤ M := le_foldl_max rest _
      by_cases hMgt : M > p.2
      · have h1 : M > w := lt_trans hp hMgt
        have hne : (decide (p.2 = M)) = false := by
          simp [ne_of_lt hMgt]
        simp only [hMgt, if_true, h1, if_true, List.find?_cons, hne]
      · have hMeq : M = p.2 := le_antisymm (not_lt.mp hMgt) hMge
        have h1 : M > w := hMeq ▸ hp
        have heq : (decide (p.2 = M)) = true := by simp [hMeq]
        simp only [hMgt, if_false, h1, if_true, List.find?_cons, heq]
        rfl
    · have hstep : pStep (w, u) p = (w, u) := by simp [pStep, hp]
      have hmax : max w p.2 = w := max_eq_left (not_lt.mp hp)
      rw [hstep, ih, hmax]
      set M := rest.foldl (fun a p => max a p.2) w with hM
      by_cases hMgt : M > w
      · have hne : (decide (p.2 = M)) = false := by
          have : p.2 ≠ M := by
            intro he
            exact hp (he ▸ hMgt)
          simp [this]
        simp only [hMgt, if_true, List.find?_cons, hne]
      · simp only [hMgt, if_false]

theorem goParseWidth_nonneg (s : String) : 0 ≤ goParseWidth s := by
  unfold goParseWidth
  by_cases h : s = ""
  · simp [h]
  · simp only [h, if_false, le_min_iff]
    constructor
    · exact Int.ofNat_nonneg _
    · decide

theorem tryParseImgURL_scheme (parse : UrlParse) (s : String) (u : UrlInfo)
    (h : tryParseImgURL parse s = some u) :
    allowedSrcSchemes.contains u.scheme = true := by
  unfold tryParseImgURL at h
  cases hp : parse s with
  | none => rw [hp] at h; simp at h
  | some v =>
    rw [hp] at h
    dsimp only at h
    split at h
    · cases h; assumption
    · simp at h

theorem itemParsed_spec (parse : UrlParse) (item : String) (p : UrlInfo × Int)
    (h : itemParsed parse item = some p) :
    ∃ g1 g2, srcsetGroups item = some (g1, g2) ∧
      tryParseImgURL parse g1 = some p.1 ∧ p.2 = goParseWidth g2 := by
  unfold itemParsed at h
  cases hg : srcsetGroups item with
  | none => rw [hg] at h; simp at h
  | some g =>
    obtain ⟨g1, g2⟩ := g
    rw [hg] at h
    dsimp only at h
    cases hu : tryParseImgURL parse g1 with
    | none => rw [hu] at h; simp at h
    | some u =>
      rw [hu] at h
      dsimp only at h
      cases h
      exact ⟨g1, g2, rfl, hu, rfl⟩

theorem foldl_pStep_scheme (l : List (UrlInfo × Int))
    (hl : ∀ p ∈ l, allowedSrcSchemes.contains p.1.scheme = true) :
    ∀ st : Int × Option UrlInfo,
      st.2.all (fun u => allowedSrcSchemes.contains u.scheme) = true →
      ((l.foldl pStep st).2).all (fun u => allowedSrcSchemes.contains u.scheme) = true := by
  induction l with
  | nil => intro st h; exact h
  | cons p rest ih =>
    intro st h
    rw [List.foldl_cons]
    refine ih (fun q hq => hl q (List.mem_cons_of_mem _ hq)) _ ?_
    unfold pStep
    by_cases hp : p.2 > st.1
    · simp only [hp, if_true, Option.all_some]
      exact hl p (List.mem_cons_self _ _)
    · simp only [hp, if_false]
      exact h

/-- C5: `srcset` parsing splits the string on commas, matches each item
against the regex `^\s*(.+?)(?: (\d+)w)?\s*$`, treats items without a
width descriptor as width 0, skips items whose URL does not parse or whose
scheme is outside the empty/http/https set, and returns the URL of the
item with the largest width descriptor, ties broken in favor of the
first-seen item; every returned URL passed the scheme filter. -/
theorem C5_srcset_selection (parse : UrlParse) (s : String) :
    tryParseImgSrcset parse s = pickMaxFirst (srcsetParsedItems parse s) ∧
    goParseWidth "" = 0 ∧
    (tryParseImgSrcset parse s).all
      (fun u => allowedSrcSchemes.contains u.scheme) = true := by
  have hparsedScheme : ∀ p ∈ srcsetParsedItems parse s,
      allowedSrcSchemes.contains p.1.scheme = true := by
    intro p hp
    unfold srcsetParsedItems at hp
    rcases List.mem_filterMap.mp hp with ⟨item, _, hit⟩
    obtain ⟨g1, g2, _, hu, _⟩ := itemParsed_spec parse item p hit
    exact tryParseImgURL_scheme parse g1 p.1 hu
  have hfold : tryParseImgSrcset parse s =
      ((srcsetParsedItems parse s).foldl pStep (-1, none)).2 := by
    unfold tryParseImgSrcset srcsetParsedItems
    rw [foldl_srcsetStep]
  refine ⟨?_, rfl, ?_⟩
  · rw [hfold, foldl_pStep_spec]
    unfold pickMaxFirst maxWidthOf
    match hl : srcsetParsedItems parse s with
    | [] => simp
    | p :: rest =>
      have hge : (0 : Int) ≤ p.2 := by
        have hp : p ∈ srcsetParsedItems parse s := by rw [hl]; exact List.mem_cons_self _ _
        unfold srcsetParsedItems at hp
        rcases List.mem_filterMap.mp hp with ⟨item, _, hit⟩
        obtain ⟨g1, g2, _, _, hw⟩ := itemParsed_spec parse item p hit
        rw [hw]
        exact goParseWidth_nonneg g2
      have hmax : (p :: rest).foldl (fun a p => max a p.2) (-1) > -1 := by
        have h1 : p.2 ≤ (p :: rest).foldl (fun a p => max a p.2) (-1) :=
          mem_le_foldl_max _ _ p (List.mem_cons_self _ _)
        omega
      simp only [hmax, if_true]
  · rw [hfold]
    exact foldl_pStep_scheme _ hparsedScheme _ (by simp)

/-! ### C8: nil distilled body -/

/-- Case analysis of `Readable`: either it returns a root (and no error),
or it returns no node, the "no body tag found" error and a nil images map. -/
theorem readableFull_cases (O : Oracles) (n : HNode) (args : RArgs) :
    (∃ root, (readableFull O n args).node = some root ∧
      (readableFull O n args).err = none) ∨
    ((readableFull O n args).node = none ∧
      (readableFull O n args).err = some "no body tag found" ∧
      (readableFull O n args).images = []) := by
  unfold readableFull
  dsimp only
  split
  · split
    · right; exact ⟨rfl, rfl, rfl⟩
    · left; exact ⟨_, rfl, rfl⟩
  · left; exact ⟨_, rfl, rfl⟩

/-- Oracle set for the C8 runs (schemes always allowed, downloads fail). -/
def O8 : Oracles :=
  ⟨fun s => some ⟨"", s, s⟩, fun _ => none, fun _ => none, fun _ => none,
   fun i _ => i, fun _ => none, "T"⟩

/-- A document with a head and title but no body and no article. -/
def c8doc : HNode :=
  .elem "html" "html" []
    (.cons (.elem "head" "head" []
      (.cons (.elem "title" "title" [] (.cons (.text "T") .nil)) .nil)) .nil)

/-- C8 counterexample: on a document whose distillation yields a nil body,
`Readable` itself fails with "no body tag found", so `getEpub` returns that
wrapped distillation error — not the `UnsupportedURL` error the claim
names (that branch fires only when `Readable` returns a nil node without
an error, which it never does). The packager is still not invoked. -/
theorem C8_counterexample :
    getEpubM O8 (fun _ => "") "u" (fun _ => "T") (fun _ => "")
        (some (c8doc, "http://e/x")) "http://e/x" "" false 0 =
      .error (.readableWrap "no body tag found") ∧
    getEpubM O8 (fun _ => "") "u" (fun _ => "T") (fun _ => "")
        (some (c8doc, "http://e/x")) "http://e/x" "" false 0 ≠
      .error (.unsupportedURL "http://e/x") ∧
    exceptOk (getEpubM O8 (fun _ => "") "u" (fun _ => "T") (fun _ => "")
        (some (c8doc, "http://e/x")) "http://e/x" "" false 0) = false := by
  refine ⟨rfl, ?_, rfl⟩
  intro h
  have h2 : GErr.readableWrap "no body tag found" =
      GErr.unsupportedURL "http://e/x" := by
    have h1 : Except.error (ε := GErr)
        (α := String × String × List ZipEntry)
        (.readableWrap "no body tag found") = .error (.unsupportedURL "http://e/x") := h
    injection h1
  exact absurd h2 (by decide)

/-- C8 as amended: when the distillation fails (in particular when the
distilled body is nil, which surfaces as the Readable-level
"no body tag found" error), `getEpub` returns that error wrapped — not
`UnsupportedURL` — and does not invoke the EPUB packager; the
`UnsupportedURL` branch guards the nil-node-without-error case, which
`Readable` never produces. -/
theorem C8_amended_nil_body (O : Oracles) (detect : List Nat → String)
    (uuid : String) (titleOf authorOf : HNode → String)
    (root : HNode) (baseURL url lang : String) (gray : Bool) (fit : Int)
    (e : String)
    (herr : (readableFull O root ⟨some baseURL, "images", gray, fit, 20⟩).err =
      some e) :
    getEpubM O detect uuid titleOf authorOf (some (root, baseURL)) url lang
        gray fit = .error (.readableWrap e) ∧
    exceptOk (getEpubM O detect uuid titleOf authorOf (some (root, baseURL))
        url lang gray fit) = false ∧
    (∀ (n' : HNode) (args : RArgs), (readableFull O n' args).node = none →
      (readableFull O n' args).err = some "no body tag found") := by
  have hmain : getEpubM O detect uuid titleOf authorOf (some (root, baseURL))
      url lang gray fit = .error (.readableWrap e) := by
    unfold getEpubM
    dsimp only
    rcases hR : readableFull O root ⟨some baseURL, "images", gray, fit, 20⟩ with
      ⟨node?, images, err?, st⟩
    rw [hR] at herr
    dsimp only at herr ⊢
    rw [herr]
  refine ⟨hmain, by rw [hmain]; rfl, ?_⟩
  intro n' args hnone
  rcases readableFull_cases O n' args with ⟨r, hr, _⟩ | ⟨_, he, _⟩
  · rw [hr] at hnone; simp at hnone
  · exact he

/-- C8 amended, witnessed on the concrete no-body document. -/
theorem C8_amended_nil_body_witness :
    getEpubM O8 (fun _ => "") "u" (fun _ => "T") (fun _ => "")
        (some (c8doc, "http://e/x")) "http://e/x" "" false 0 =
      .error (.readableWrap "no body tag found") :=
  (C8_amended_nil_body O8 (fun _ => "") "u" (fun _ => "T") (fun _ => "")
    c8doc "http://e/x" "http://e/x" "" false 0 "no body tag found" rfl).1

/-! ### C7: image filename shape -/

/-- Claim-side decision of the regex `^\d{3}\.[^.]+$`: exactly three
digits, a dot, then one or more non-dot characters. -/
def matchesC7 (s : String) : Bool :=
  match s.data with
  | a :: b :: c :: '.' :: rest =>
    isDigitCh a && isDigitCh b && isDigitCh c && !rest.isEmpty &&
      rest.all (fun ch => ch != '.')
  | _ => false

/-- URL oracle mapping a candidate `s` to `http://e/s` with path `/s`. -/
def O7 : Oracles :=
  ⟨fun s => some ⟨"", "http://e/" ++ s, "/" ++ s⟩, fun _ => none, fun _ => none,
   fun _ => none, fun i _ => i, fun _ => none, "T"⟩

/-- A document whose body holds one image with the given `src`. -/
def c7doc (srcVal : String) : HNode :=
  .elem "html" "html" []
    (.cons (.elem "body" "body" []
      (.cons (.elem "img" "img" [("src", srcVal)] .nil) .nil)) .nil)

/-- C7 counterexample: with grayscale off, (a) an image URL whose path has
no extension is assigned the local filename `images/001`, whose part under
the `images/` prefix (`001`) does not match `^\d{3}\.[^.]+$`; and (b) an
image URL whose path ends in `.jpg` keeps the `.jpg` extension even though
grayscale is disabled, refuting the "`.jpg` iff grayscale" part. -/
theorem C7_counterexample :
    (readableFull O7 (c7doc "a") ⟨some "b", "images", false, 0, 0⟩).images.map
      Prod.fst = ["images/001"] ∧
    "images/001" = pathJoin "images" "001" ∧
    matchesC7 "001" = false ∧
    (readableFull O7 (c7doc "a.jpg") ⟨some "b", "images", false, 0, 0⟩).state.mapping =
      [("http://e/a.jpg", "images/001.jpg")] := by
  exact ⟨rfl, rfl, by decide, rfl⟩

/-! ### Distillation-state invariant -/

/-- The local filename allocated for discovery counter `c` with extension
`e` under the configured images directory. -/
def allocName (dir : String) (c : Nat) (e : String) : String :=
  pathJoin dir (fmt03 c ++ e)

theorem allocName_inj {dir : String} {c₁ c₂ : Nat} {e₁ e₂ : String}
    (h₁ : extOk e₁) (h₂ : extOk e₂) (hne : c₁ ≠ c₂) :
    allocName dir c₁ e₁ ≠ allocName dir c₂ e₂ := by
  intro h
  exact hne (fmt03_ext_inj h₁ h₂ (pathJoin_inj h))

/-- Invariant of the distillation state: the assigned filenames are the
`allocName`s of a strictly increasing list of counters (all between 1 and
the current counter) with well-shaped extensions (`.jpg` when grayscale is
on); the mapping keys (absolute URLs) are distinct; and the manifest is
exactly the mapping, entry by entry, with each filename bound to its
download result. -/
def Inv (P : RParams) (st : RState) : Prop :=
  ∃ ces : List (Nat × String),
    st.mapping.map Prod.snd = ces.map (fun p => allocName P.imagesDir p.1 p.2) ∧
    ces.Pairwise (fun p q => p.1 < q.1) ∧
    (∀ p ∈ ces, 1 ≤ p.1 ∧ p.1 ≤ st.counter ∧ extOk p.2 ∧
      (P.gray = true → p.2 = ".jpg")) ∧
    (st.mapping.map Prod.fst).Nodup ∧
    st.manifest = st.mapping.map
      (fun q => (q.2, downloadImage P.O P.gray P.fit q.1))

theorem inv_init (P : RParams) : Inv P ⟨0, [], []⟩ :=
  ⟨[], rfl, .nil, by simp, .nil, rfl⟩

theorem inv_values_nodup {P : RParams} {st : RState} (h : Inv P st) :
    (st.mapping.map Prod.snd).Nodup := by
  obtain ⟨ces, hmap, hpw, hbound, _, _⟩ := h
  rw [hmap]
  refine List.pairwise_map.mpr ?_
  refine hpw.imp_of_mem ?_
  intro a b ha hb hlt
  exact allocName_inj (hbound a ha).2.2.1 (hbound b hb).2.2.1 (Nat.ne_of_lt hlt)

theorem lookupA_eq_none_iff {β : Type} (l : List (String × β)) (k : String) :
    lookupA l k = none ↔ ∀ p ∈ l, p.1 ≠ k := by
  unfold lookupA
  rw [Option.map_eq_none', List.find?_eq_none]
  exact ⟨fun h p hp => by simpa using h p hp, fun h p hp => by simpa using h p hp⟩

theorem lookupA_mem {β : Type} {l : List (String × β)} {k : String} {v : β}
    (h : lookupA l k = some v) : (k, v) ∈ l := by
  unfold lookupA at h
  induction l with
  | nil => simp at h
  | cons p rest ih =>
    by_cases hk : p.1 = k
    · rw [List.find?_cons_of_pos _ (by simp [hk])] at h
      simp only [Option.map_some'] at h
      cases h
      have hpe : (k, p.2) = p := by
        cases p
        simp only at hk
        rw [hk]
      rw [hpe]
      exact List.mem_cons_self _ _
    · rw [List.find?_cons_of_neg _ (by simp [hk])] at h
      exact List.mem_cons_of_mem _ (ih h)

theorem lookupA_mem_nodup {β : Type} {l : List (String × β)}
    (h : (l.map Prod.fst).Nodup) {k : String} {v : β}
    (hm : (k, v) ∈ l) : lookupA l k = some v := by
  induction l with
  | nil => simp at hm
  | cons p rest ih =>
    have hcons : p.1 ∉ rest.map Prod.fst ∧ (rest.map Prod.fst).Nodup := by
      rw [List.map_cons, List.nodup_cons] at h
      exact h
    rcases List.mem_cons.mp hm with he | hmem
    · subst he
      unfold lookupA
      rw [List.find?_cons_of_pos _ (by simp)]
      rfl
    · have hk : ¬(p.1 = k) := by
        intro hpk
        have hkm : k ∈ rest.map Prod.fst := List.mem_map.mpr ⟨(k, v), hmem, rfl⟩
        rw [hpk] at hcons
        exact hcons.1 hkm
      unfold lookupA
      rw [List.find?_cons_of_neg _ (by simp [hk])]
      exact ih hcons.2 hmem

/-! ### Tree checkers -/

/-- The attribute keys that can actually appear on an emitted `img`
element: the `img` and `source` allow-sets (the `source` tag is rewritten
to `img` keeping its copied attributes) plus the alternative source keys,
which the attribute loop also copies. -/
def imgAllowedKeys : List String :=
  ["src", "srcset", "alt", "type", "nitro-lazy-src", "data-src"]

mutual
/-- Amended whitelist property of the returned readable tree: every
element has a whitelisted tag and whitelisted attribute keys, except that
`img` elements may carry any key of `imgAllowedKeys` and the injected
`meta` provenance markers carry `itemprop`. -/
def amendedOk : HNode → Bool
  | .text _ => true
  | .other => true
  | .elem da _ attrs children =>
    (if da = "img" then attrs.all (fun a => imgAllowedKeys.contains a.1)
     else if da = "meta" then attrs.all (fun a => a.1 = "itemprop")
     else
       match atoms da with
       | some allow => attrs.all (fun a => allow.contains a.1)
       | none => false) && amendedOkF children

/-- `amendedOk` over a sibling list. -/
def amendedOkF : HForest → Bool
  | .nil => true
  | .cons c rest => amendedOk c && amendedOkF rest
end

mutual
/-- The claim C1 property, verbatim: every element in the tree has its tag
in the `atoms` whitelist and every attribute key in that tag's allow-set. -/
def strictOk : HNode → Bool
  | .text _ => true
  | .other => true
  | .elem da _ attrs children =>
    (match atoms da with
     | some allow => attrs.all (fun a => allow.contains a.1)
     | none => false) && strictOkF children

/-- `strictOk` over a sibling list. -/
def strictOkF : HForest → Bool
  | .nil => true
  | .cons c rest => strictOk c && strictOkF rest
end

mutual
/-- Claim C10 property: every `img` element carries a `src` attribute
whose value is one of the given manifest keys. -/
def imgsCovered (keys : List String) : HNode → Bool
  | .text _ => true
  | .other => true
  | .elem da _ attrs children =>
    (if da = "img" then
       attrs.any (fun a => decide (a.1 = "src") && keys.contains a.2)
     else true) && imgsCoveredF keys children

/-- `imgsCovered` over a sibling list. -/
def imgsCoveredF (keys : List String) : HForest → Bool
  | .nil => true
  | .cons c rest => imgsCovered keys c && imgsCoveredF keys rest
end

theorem containsMem {l : List String} {a : String} : l.contains a = true ↔ a ∈ l := by
  simp

mutual
theorem imgsCovered_mono {K1 K2 : List String} (hK : ∀ k ∈ K1, k ∈ K2) :
    ∀ n : HNode, imgsCovered K1 n = true → imgsCovered K2 n = true
  | .text _, _ => rfl
  | .other, _ => rfl
  | .elem da d attrs children, h => by
    unfold imgsCovered at h ⊢
    rw [Bool.and_eq_true] at h ⊢
    refine ⟨?_, imgsCoveredF_mono hK children h.2⟩
    by_cases hda : da = "img"
    · rw [if_pos hda] at h ⊢
      rcases List.any_eq_true.mp h.1 with ⟨a, ha, hpa⟩
      refine List.any_eq_true.mpr ⟨a, ha, ?_⟩
      rw [Bool.and_eq_true] at hpa ⊢
      exact ⟨hpa.1, containsMem.mpr (hK _ (containsMem.mp hpa.2))⟩
    · rw [if_neg hda]

theorem imgsCoveredF_mono {K1 K2 : List String} (hK : ∀ k ∈ K1, k ∈ K2) :
    ∀ f : HForest, imgsCoveredF K1 f = true → imgsCoveredF K2 f = true
  | .nil, _ => rfl
  | .cons c rest, h => by
    unfold imgsCoveredF at h ⊢
    rw [Bool.and_eq_true] at h ⊢
    exact ⟨imgsCovered_mono hK c h.1, imgsCoveredF_mono hK rest h.2⟩
end

theorem amendedOkF_push : ∀ {f : HForest} {x : HNode},
    amendedOkF f = true → amendedOk x = true → amendedOkF (f.push x) = true
  | .nil, x, _, hx => by
    simpa [HForest.push, amendedOkF] using hx
  | .cons c rest, x, hf, hx => by
    unfold amendedOkF at hf
    rw [Bool.and_eq_true] at hf
    simp only [HForest.push, amendedOkF, Bool.and_eq_true]
    exact ⟨hf.1, amendedOkF_push hf.2 hx⟩

theorem imgsCoveredF_push : ∀ {K : List String} {f : HForest} {x : HNode},
    imgsCoveredF K f = true → imgsCovered K x = true →
    imgsCoveredF K (f.push x) = true
  | _, .nil, x, _, hx => by
    simpa [HForest.push, imgsCoveredF] using hx
  | K, .cons c rest, x, hf, hx => by
    unfold imgsCoveredF at hf
    rw [Bool.and_eq_true] at hf
    simp only [HForest.push, imgsCoveredF, Bool.and_eq_true]
    exact ⟨hf.1, imgsCoveredF_push hf.2 hx⟩

theorem amendedOk_appendChild {n x : HNode} (hn : amendedOk n = true)
    (hx : amendedOk x = true) : amendedOk (appendChild n x) = true := by
  cases n with
  | text d => exact hn
  | other => exact hn
  | elem da d attrs children =>
    unfold appendChild
    unfold amendedOk at hn ⊢
    rw [Bool.and_eq_true] at hn ⊢
    exact ⟨hn.1, amendedOkF_push hn.2 hx⟩

theorem imgsCovered_appendChild {K : List String} {n x : HNode}
    (hn : imgsCovered K n = true) (hx : imgsCovered K x = true) :
    imgsCovered K (appendChild n x) = true := by
  cases n with
  | text d => exact hn
  | other => exact hn
  | elem da d attrs children =>
    unfold appendChild
    unfold imgsCovered at hn ⊢
    rw [Bool.and_eq_true] at hn ⊢
    exact ⟨hn.1, imgsCoveredF_push hn.2 hx⟩

/-! ### Attribute-scan lemmas -/

theorem lt_of_get?_eq_some {α : Type} {l : List α} {i : Nat} {x : α}
    (h : l.get? i = some x) : i < l.length := by
  by_contra hge
  rw [List.get?_eq_none.mpr (le_of_not_lt hge)] at h
  simp at h

theorem scanStep_attrs_cases (isImg : Bool) (allow : List String)
    (st : AttrScan) (attr : HAttr) :
    (scanStep isImg allow st attr).attrs = st.attrs ∨
    ((scanStep isImg allow st attr).attrs = st.attrs ++ [attr] ∧
      (allow.contains attr.1 = true ∨
        (isImg = true ∧ imgSrcAlternatives.contains attr.1 = true))) := by
  simp only [scanStep]
  split
  · rename_i hc
    right
    refine ⟨rfl, ?_⟩
    rw [Bool.or_eq_true, Bool.and_eq_true] at hc
    rcases hc with ⟨h1, h2⟩ | h1
    · exact Or.inr ⟨h1, h2⟩
    · exact Or.inl h1
  · left; rfl

/-- A position-invariant kept by the attribute scan: the recorded index
points at an attribute with the given key. -/
def idxInv (key : String) (idx : Option Nat) (attrs : List HAttr) : Prop :=
  ∀ i, idx = some i → ∃ v, attrs.get? i = some (key, v)

theorem scanStep_idxInv (isImg : Bool) (allow : List String)
    (st : AttrScan) (attr : HAttr)
    (hsrc : idxInv "src" st.srcIdx st.attrs)
    (hsrcset : idxInv "srcset" st.srcsetIdx st.attrs) :
    idxInv "src" (scanStep isImg allow st attr).srcIdx
        (scanStep isImg allow st attr).attrs ∧
    idxInv "srcset" (scanStep isImg allow st attr).srcsetIdx
        (scanStep isImg allow st attr).attrs := by
  simp only [scanStep]
  split
  · constructor
    · intro i hi
      dsimp only at hi ⊢
      by_cases hk : attr.1 = "src"
      · rw [if_pos hk] at hi
        injection hi with hi2
        subst hi2
        refine ⟨attr.2, ?_⟩
        rw [List.get?_append_right le_rfl]
        simp only [Nat.sub_self, List.get?]
        cases attr
        simp only at hk
        rw [hk]
      · rw [if_neg hk] at hi
        obtain ⟨v, hv⟩ := hsrc i hi
        exact ⟨v, by rw [List.get?_append (lt_of_get?_eq_some hv)]; exact hv⟩
    · intro i hi
      dsimp only at hi ⊢
      by_cases hk : attr.1 = "srcset"
      · rw [if_pos hk] at hi
        injection hi with hi2
        subst hi2
        refine ⟨attr.2, ?_⟩
        rw [List.get?_append_right le_rfl]
        simp only [Nat.sub_self, List.get?]
        cases attr
        simp only at hk
        rw [hk]
      · rw [if_neg hk] at hi
        obtain ⟨v, hv⟩ := hsrcset i hi
        exact ⟨v, by rw [List.get?_append (lt_of_get?_eq_some hv)]; exact hv⟩
  · exact ⟨hsrc, hsrcset⟩

theorem scanAttrs_idx (isImg : Bool) (allow : List String) (attrs : List HAttr) :
    idxInv "src" (scanAttrs isImg allow attrs).srcIdx
        (scanAttrs isImg allow attrs).attrs ∧
    idxInv "srcset" (scanAttrs isImg allow attrs).srcsetIdx
        (scanAttrs isImg allow attrs).attrs := by
  unfold scanAttrs
  suffices h : ∀ (init : AttrScan),
      idxInv "src" init.srcIdx init.attrs →
      idxInv "srcset" init.srcsetIdx init.attrs →
      idxInv "src" (attrs.foldl (scanStep isImg allow) init).srcIdx
          (attrs.foldl (scanStep isImg allow) init).attrs ∧
      idxInv "srcset" (attrs.foldl (scanStep isImg allow) init).srcsetIdx
          (attrs.foldl (scanStep isImg allow) init).attrs by
    exact h ⟨[], none, none, []⟩ (by intro i hi; simp at hi)
      (by intro i hi; simp at hi)
  induction attrs with
  | nil => intro init h1 h2; exact ⟨h1, h2⟩
  | cons attr rest ih =>
    intro init h1 h2
    rw [List.foldl_cons]
    have hstep := scanStep_idxInv isImg allow init attr h1 h2
    exact ih _ hstep.1 hstep.2

theorem scanAttrs_keys (isImg : Bool) (allow : List String) (attrs : List HAttr) :
    ∀ a ∈ (scanAttrs isImg allow attrs).attrs,
      allow.contains a.1 = true ∨
        (isImg = true ∧ imgSrcAlternatives.contains a.1 = true) := by
  unfold scanAttrs
  suffices h : ∀ (init : AttrScan),
      (∀ a ∈ init.attrs, allow.contains a.1 = true ∨
        (isImg = true ∧ imgSrcAlternatives.contains a.1 = true)) →
      ∀ a ∈ (attrs.foldl (scanStep isImg allow) init).attrs,
        allow.contains a.1 = true ∨
          (isImg = true ∧ imgSrcAlternatives.contains a.1 = true) by
    exact h ⟨[], none, none, []⟩ (by simp)
  induction attrs with
  | nil => intro init hinit; exact hinit
  | cons attr rest ih =>
    intro init hinit
    rw [List.foldl_cons]
    refine ih _ ?_
    rcases scanStep_attrs_cases isImg allow init attr with hc | ⟨hc, hk⟩
    · rw [hc]; exact hinit
    · rw [hc]
      intro a ha
      rcases List.mem_append.mp ha with h1 | h1
      · exact hinit a h1
      · have he : a = attr := by simpa using h1
        subst he
        exact hk

theorem mem_removeSrcset {l : List HAttr} {x : HAttr} :
    ∀ {j? : Option Nat}, x ∈ removeSrcset l j? → x ∈ l
  | none, h => h
  | some j, h => by
    unfold removeSrcset at h
    rcases List.mem_append.mp h with h1 | h1
    · exact List.mem_of_mem_take h1
    · exact List.mem_of_mem_drop h1

theorem get?_mem_removeSrcset {l : List HAttr} {i j : Nat} {x : HAttr}
    (hne : i ≠ j) (h : l.get? i = some x) : x ∈ removeSrcset l (some j) := by
  unfold removeSrcset
  rcases Nat.lt_or_ge i j with hij | hij
  · refine List.mem_append.mpr (Or.inl ?_)
    have h2 : (l.take j).get? i = some x := by
      rw [List.get?_take hij]
      exact h
    exact List.get?_mem h2
  · have hij2 : j + 1 ≤ i := by omega
    refine List.mem_append.mpr (Or.inr ?_)
    have h2 : (l.drop (j + 1)).get? (i - (j + 1)) = some x := by
      rw [List.get?_drop]
      have h3 : j + 1 + (i - (j + 1)) = i := by omega
      rw [h3]
      exact h
    exact List.get?_mem h2

theorem setAttrVal_get? {l : List HAttr} {i : Nat} {a : HAttr}
    (h : l.get? i = some a) (v : String) :
    (setAttrVal l i v).get? i = some (a.1, v) := by
  unfold setAttrVal
  rw [h]
  rw [List.get?_set_eq]
  simp [lt_of_get?_eq_some h]

theorem mem_setAttrVal_keys {l : List HAttr} {i : Nat} {v : String} {x : HAttr}
    (h : x ∈ setAttrVal l i v) : x.1 ∈ l.map Prod.fst := by
  unfold setAttrVal at h
  cases hg : l.get? i with
  | none => rw [hg] at h; exact List.mem_map.mpr ⟨x, h, rfl⟩
  | some a =>
    rw [hg] at h
    rcases List.mem_or_eq_of_mem_set h with h1 | h1
    · exact List.mem_map.mpr ⟨x, h1, rfl⟩
    · rw [h1]
      exact List.mem_map.mpr ⟨a, List.get?_mem hg, rfl⟩

/-- Shape facts about the `img` element emitted by the image-handling
block: its attribute keys stay inside `imgAllowedKeys`, and it carries a
`src` attribute whose value is the chosen filename. -/
theorem imgNode_ok {attrs1 : List HAttr} {srcIdx : Nat} {fname : String}
    {srcsetIdx? : Option Nat} {keys : List String}
    (hkeys1 : ∀ a ∈ attrs1, imgAllowedKeys.contains a.1 = true)
    (hget : ∃ v, attrs1.get? srcIdx = some ("src", v))
    (hsrcset : ∀ j, srcsetIdx? = some j → j ≠ srcIdx)
    (hfk : fname ∈ keys) :
    amendedOk (.elem "img" "img"
      (removeSrcset (setAttrVal attrs1 srcIdx fname) srcsetIdx?) .nil) = true ∧
    imgsCovered keys (.elem "img" "img"
      (removeSrcset (setAttrVal attrs1 srcIdx fname) srcsetIdx?) .nil) = true := by
  obtain ⟨v, hv⟩ := hget
  have hsrcAttr : ("src", fname) ∈
      removeSrcset (setAttrVal attrs1 srcIdx fname) srcsetIdx? := by
    have hset : (setAttrVal attrs1 srcIdx fname).get? srcIdx =
        some ("src", fname) := setAttrVal_get? hv fname
    cases hj : srcsetIdx? with
    | none => exact List.get?_mem hset
    | some j =>
      exact get?_mem_removeSrcset (fun he => (hsrcset j hj) (he.symm ▸ rfl)) hset
  constructor
  · unfold amendedOk
    rw [Bool.and_eq_true]
    refine ⟨?_, rfl⟩
    rw [if_pos rfl]
    refine List.all_eq_true.mpr ?_
    intro a ha
    have h1 : a.1 ∈ (setAttrVal attrs1 srcIdx fname).map Prod.fst := by
      have := mem_removeSrcset ha
      exact List.mem_map.mpr ⟨a, this, rfl⟩
    rcases List.mem_map.mp h1 with ⟨b, hb, hab⟩
    have h2 : b.1 ∈ attrs1.map Prod.fst := mem_setAttrVal_keys hb
    rcases List.mem_map.mp h2 with ⟨c, hc, hcb⟩
    rw [← hab, ← hcb]
    exact hkeys1 c hc
  · unfold imgsCovered
    rw [Bool.and_eq_true]
    refine ⟨?_, rfl⟩
    rw [if_pos rfl]
    refine List.any_eq_true.mpr ⟨("src", fname), hsrcAttr, ?_⟩
    rw [Bool.and_eq_true]
    exact ⟨by simp, containsMem.mpr hfk⟩

theorem inv_manifest_keys {P : RParams} {st : RState} (h : Inv P st) :
    st.manifest.map Prod.fst = st.mapping.map Prod.snd := by
  obtain ⟨_, _, _, _, _, hman⟩ := h
  rw [hman, List.map_map]
  rfl

/-- All state- and node-level facts about one execution of the
image-handling block: the state invariant is preserved, the mapping only
grows, the counter never decreases, and an emitted node is a well-shaped
`img` whose `src` value is a manifest key. -/
theorem handleImg_facts (P : RParams) (sc : AttrScan) (st : RState)
    (hinv : Inv P st)
    (hkeys : ∀ a ∈ sc.attrs, imgAllowedKeys.contains a.1 = true)
    (hidxSrc : idxInv "src" sc.srcIdx sc.attrs)
    (hidxSrcset : idxInv "srcset" sc.srcsetIdx sc.attrs) :
    Inv P (handleImg P sc st).2 ∧
    (∃ tl, (handleImg P sc st).2.mapping = st.mapping ++ tl) ∧
    st.counter ≤ (handleImg P sc st).2.counter ∧
    (∀ t, (handleImg P sc st).1 = some t →
      amendedOk t = true ∧
      imgsCovered ((handleImg P sc st).2.manifest.map Prod.fst) t = true) := by
  unfold handleImg
  cases hfind : findSrcURLFromIMGNode P.O.parse sc.attrs
      (sc.srcIdx :: sc.altIdxs.map some) sc.srcsetIdx with
  | none =>
    refine ⟨hinv, ⟨[], by simp⟩, le_rfl, ?_⟩
    intro t ht
    simp at ht
  | some u =>
    dsimp only
    -- Facts about the src attribute position after the optional append.
    have hattrs1 : ∀ (attrs1 : List HAttr) (srcIdx : Nat),
        (match sc.srcIdx with
          | some i => (sc.attrs, i)
          | none => (sc.attrs ++ [("src", "")], sc.attrs.length)) =
          (attrs1, srcIdx) →
        (∀ a ∈ attrs1, imgAllowedKeys.contains a.1 = true) ∧
        (∃ v, attrs1.get? srcIdx = some ("src", v)) ∧
        (∀ j, sc.srcsetIdx = some j → j ≠ srcIdx) ∧
        idxInv "srcset" sc.srcsetIdx attrs1 := by
      intro attrs1 srcIdx heq
      cases hsi : sc.srcIdx with
      | some i =>
        rw [hsi] at heq
        injection heq with h1 h2
        subst h1; subst h2
        obtain ⟨v, hv⟩ := hidxSrc i hsi
        refine ⟨hkeys, ⟨v, hv⟩, ?_, hidxSrcset⟩
        intro j hj he
        obtain ⟨w, hw⟩ := hidxSrcset j hj
        rw [he, hv] at hw
        simp at hw
      | none =>
        rw [hsi] at heq
        injection heq with h1 h2
        subst h1; subst h2
        refine ⟨?_, ⟨"", ?_⟩, ?_, ?_⟩
        · intro a ha
          rcases List.mem_append.mp ha with h1 | h1
          · exact hkeys a h1
          · have he : a = ("src", "") := by simpa using h1
            rw [he]
            decide
        · rw [List.get?_append_right le_rfl]
          simp
        · intro j hj he
          obtain ⟨w, hw⟩ := hidxSrcset j hj
          have := lt_of_get?_eq_some hw
          omega
        · intro j hj
          obtain ⟨w, hw⟩ := hidxSrcset j hj
          exact ⟨w, by rw [List.get?_append (lt_of_get?_eq_some hw)]; exact hw⟩
    rcases hm : (match sc.srcIdx with
      | some i => (sc.attrs, i)
      | none => (sc.attrs ++ [("src", "")], sc.attrs.length)) with ⟨attrs1, srcIdx⟩
    obtain ⟨hkeys1, hget1, hne1, _⟩ := hattrs1 attrs1 srcIdx hm
    rw [hm]
    dsimp only
    cases hlook : lookupA st.mapping u.absStr with
    | some fname =>
      dsimp only
      refine ⟨hinv, ⟨[], by simp⟩, le_rfl, ?_⟩
      intro t ht
      injection ht with ht2
      subst ht2
      refine imgNode_ok hkeys1 hget1 hne1 ?_
      have hmem : (u.absStr, fname) ∈ st.mapping := lookupA_mem hlook
      have h1 : fname ∈ st.mapping.map Prod.snd :=
        List.mem_map.mpr ⟨(u.absStr, fname), hmem, rfl⟩
      rw [inv_manifest_keys hinv]
      exact h1
    | none =>
      dsimp only
      have hnotin : ∀ p ∈ st.mapping, p.1 ≠ u.absStr :=
        (lookupA_eq_none_iff _ _).mp hlook
      obtain ⟨ces, hmap, hpw, hbound, hkeysN, hman⟩ := hinv
      set ext := if P.gray then ".jpg" else pathExt u.absPath with hext
      have hextOk : extOk ext := by
        rw [hext]
        by_cases hg : P.gray
        · rw [if_pos hg]; right; rfl
        · rw [if_neg hg]; exact pathExt_extOk _
      set fname := pathJoin P.imagesDir (fmt03 (st.counter + 1) ++ ext) with hfname
      have hinv2 : Inv P ⟨st.counter + 1,
          st.mapping ++ [(u.absStr, fname)],
          st.manifest ++ [(fname, downloadImage P.O P.gray P.fit u.absStr)]⟩ := by
        refine ⟨ces ++ [(st.counter + 1, ext)], ?_, ?_, ?_, ?_, ?_⟩
        · simp only [List.map_append, List.map_cons, List.map_nil, hmap]
          rfl
        · rw [List.pairwise_append]
          refine ⟨hpw, by simp, ?_⟩
          intro a ha b hb
          have := (hbound a ha).2.1
          have hbs : b = (st.counter + 1, ext) := by simpa using hb
          rw [hbs]
          omega
        · intro p hp
          rcases List.mem_append.mp hp with h1 | h1
          · obtain ⟨ha, hb, hc, hd⟩ := hbound p h1
            exact ⟨ha, by dsimp only; omega, hc, hd⟩
          · have hps : p = (st.counter + 1, ext) := by simpa using h1
            rw [hps]
            refine ⟨by omega, le_rfl, hextOk, ?_⟩
            intro hg
            rw [hext, if_pos hg]
        · rw [List.map_append]
          rw [List.nodup_append]
          refine ⟨hkeysN, by simp, ?_⟩
          intro a ha hb
          have hbs : a = u.absStr := by simpa using hb
          rcases List.mem_map.mp ha with ⟨p, hp, hpa⟩
          exact hnotin p hp (by rw [hpa, hbs])
        · rw [List.map_append, hman]
          rfl
      refine ⟨hinv2, ⟨[(u.absStr, fname)], rfl⟩, by omega, ?_⟩
      intro t ht
      injection ht with ht2
      subst ht2
      refine imgNode_ok hkeys1 hget1 hne1 ?_
      dsimp only
      rw [List.map_append]
      refine List.mem_append.mpr (Or.inr ?_)
      simp

theorem manifest_keys_mono {P : RParams} {st1 st2 : RState}
    (h1 : Inv P st1) (h2 : Inv P st2)
    (hext : ∃ tl, st2.mapping = st1.mapping ++ tl) :
    ∀ k ∈ st1.manifest.map Prod.fst, k ∈ st2.manifest.map Prod.fst := by
  intro k hk
  rw [inv_manifest_keys h1] at hk
  rw [inv_manifest_keys h2]
  obtain ⟨tl, htl⟩ := hext
  rw [htl, List.map_append]
  exact List.mem_append.mpr (Or.inl hk)

theorem scan_keys_imgAllowed {isImg : Bool} {allow : List String}
    {attrs : List HAttr} (hsub : ∀ k ∈ allow, k ∈ imgAllowedKeys) :
    ∀ a ∈ (scanAttrs isImg allow attrs).attrs,
      imgAllowedKeys.contains a.1 = true := by
  intro a ha
  rcases scanAttrs_keys isImg allow attrs a ha with h1 | ⟨_, h2⟩
  · exact containsMem.mpr (hsub _ (containsMem.mp h1))
  · refine containsMem.mpr ?_
    have hm := containsMem.mp h2
    simp only [imgSrcAlternatives, List.mem_cons, List.not_mem_nil, or_false] at hm
    rcases hm with h | h <;> rw [h] <;> decide

mutual
/-- State and node facts about `readableRecursive`: the invariant is
preserved, the mapping only grows, the counter never decreases, and every
emitted node satisfies the amended whitelist property and has all its
`img` `src` values among the manifest keys of the resulting state. -/
theorem readableRecursive_facts (P : RParams) :
    ∀ (n : HNode) (st : RState), Inv P st →
    Inv P (readableRecursive P n st).2 ∧
    (∃ tl, (readableRecursive P n st).2.mapping = st.mapping ++ tl) ∧
    st.counter ≤ (readableRecursive P n st).2.counter ∧
    (∀ t, (readableRecursive P n st).1 = some t →
      amendedOk t = true ∧
      imgsCovered ((readableRecursive P n st).2.manifest.map Prod.fst) t = true)
  | .other, st, h => by
    unfold readableRecursive
    exact ⟨h, ⟨[], by simp⟩, le_rfl, by intro t ht; simp at ht⟩
  | .text d, st, h => by
    unfold readableRecursive
    by_cases hsp : allSpace d = true
    · rw [if_pos hsp]
      exact ⟨h, ⟨[], by simp⟩, le_rfl, by intro t ht; simp at ht⟩
    · rw [if_neg hsp]
      refine ⟨h, ⟨[], by simp⟩, le_rfl, ?_⟩
      intro t ht
      injection ht with ht2
      subst ht2
      exact ⟨rfl, rfl⟩
  | .elem da0 data0 attrs0 children, st, h => by
    unfold readableRecursive
    by_cases hns : da0 = "noscript"
    · rw [if_pos hns]
      cases children with
      | nil => exact ⟨h, ⟨[], by simp⟩, le_rfl, by intro t ht; simp at ht⟩
      | cons c rest =>
        cases c with
        | text s =>
          cases rest with
          | nil =>
            dsimp only
            cases hni : P.O.noscriptImg s with
            | none =>
              exact ⟨h, ⟨[], by simp⟩, le_rfl, by intro t ht; simp at ht⟩
            | some imgAttrs =>
              unfold handleNoscriptImg
              refine handleImg_facts P _ st h ?_ ?_ ?_
              · refine scan_keys_imgAllowed ?_
                intro k hk
                simp only [imgAllow, List.mem_cons, List.not_mem_nil,
                  or_false] at hk
                rcases hk with rfl | rfl | rfl <;> decide
              · exact (scanAttrs_idx _ _ _).1
              · exact (scanAttrs_idx _ _ _).2
          | cons c2 rest2 =>
            exact ⟨h, ⟨[], by simp⟩, le_rfl, by intro t ht; simp at ht⟩
        | other =>
          exact ⟨h, ⟨[], by simp⟩, le_rfl, by intro t ht; simp at ht⟩
        | elem da2 d2 a2 ch2 =>
          exact ⟨h, ⟨[], by simp⟩, le_rfl, by intro t ht; simp at ht⟩
    · rw [if_neg hns]
      dsimp only
      cases hat : atoms (ampRewrite da0 data0).1 with
      | none => exact ⟨h, ⟨[], by simp⟩, le_rfl, by intro t ht; simp at ht⟩
      | some allow =>
        dsimp only
        by_cases him : imgAtoms.contains (ampRewrite da0 data0).1 = true
        · rw [if_pos him]
          have hda : (ampRewrite da0 data0).1 = "img" ∨
              (ampRewrite da0 data0).1 = "source" := by
            have hm := containsMem.mp him
            simp only [imgAtoms, List.mem_cons, List.not_mem_nil,
              or_false] at hm
            exact hm
          refine handleImg_facts P _ st h ?_ ?_ ?_
          · refine scan_keys_imgAllowed ?_
            intro k hk
            rcases hda with hda | hda
            · rw [hda] at hat
              have hal : allow = ["src", "srcset", "alt"] := by
                have : some ["src", "srcset", "alt"] = some allow := hat
                injection this with h2
                exact h2.symm
              rw [hal] at hk
              simp only [List.mem_cons, List.not_mem_nil, or_false] at hk
              rcases hk with rfl | rfl | rfl <;> decide
            · rw [hda] at hat
              have hal : allow = ["src", "srcset", "type"] := by
                have : some ["src", "srcset", "type"] = some allow := hat
                injection this with h2
                exact h2.symm
              rw [hal] at hk
              simp only [List.mem_cons, List.not_mem_nil, or_false] at hk
              rcases hk with rfl | rfl | rfl <;> decide
          · exact (scanAttrs_idx _ _ _).1
          · exact (scanAttrs_idx _ _ _).2
        · rw [if_neg him]
          obtain ⟨hinv2, hext2, hcnt2, hokF, hcovF⟩ :=
            readableForest_facts P children st h
          rcases hfor : readableForest P children st with ⟨newChildren, st2⟩
          rw [hfor] at hinv2 hext2 hcnt2 hokF hcovF
          dsimp only at hinv2 hext2 hcnt2 hokF hcovF ⊢
          have hdaimg : ¬((ampRewrite da0 data0).1 = "img") := by
            intro he
            exact him (containsMem.mpr (by rw [he]; decide))
          have hdameta : ¬((ampRewrite da0 data0).1 = "meta") := by
            intro he
            rw [he] at hat
            have h0 : atoms "meta" = none := by decide
            rw [h0] at hat
            exact Option.noConfusion hat
          split
          · exact ⟨hinv2, hext2, hcnt2, by intro t ht; simp at ht⟩
          · refine ⟨hinv2, hext2, hcnt2, ?_⟩
            intro t ht
            injection ht with ht2
            subst ht2
            constructor
            · unfold amendedOk
              rw [Bool.and_eq_true]
              refine ⟨?_, hokF⟩
              rw [if_neg hdaimg, if_neg hdameta, hat]
              refine List.all_eq_true.mpr ?_
              intro a ha
              rcases scanAttrs_keys _ allow attrs0 a ha with h1 | ⟨h2, _⟩
              · exact h1
              · exact absurd h2 (by simp [hdaimg])
            · unfold imgsCovered
              rw [Bool.and_eq_true]
              refine ⟨?_, hcovF⟩
              rw [if_neg hdaimg]

theorem readableForest_facts (P : RParams) :
    ∀ (f : HForest) (st : RState), Inv P st →
    Inv P (readableForest P f st).2 ∧
    (∃ tl, (readableForest P f st).2.mapping = st.mapping ++ tl) ∧
    st.counter ≤ (readableForest P f st).2.counter ∧
    amendedOkF (readableForest P f st).1 = true ∧
    imgsCoveredF ((readableForest P f st).2.manifest.map Prod.fst)
      (readableForest P f st).1 = true
  | .nil, st, h => by
    unfold readableForest
    exact ⟨h, ⟨[], by simp⟩, le_rfl, rfl, rfl⟩
  | .cons c rest, st, h => by
    unfold readableForest
    obtain ⟨hinv1, hext1, hcnt1, hnode1⟩ := readableRecursive_facts P c st h
    rcases hc : readableRecursive P c st with ⟨child?, st1⟩
    rw [hc] at hinv1 hext1 hcnt1 hnode1
    dsimp only at hinv1 hext1 hcnt1 hnode1 ⊢
    obtain ⟨hinv2, hext2, hcnt2, hokF2, hcovF2⟩ :=
      readableForest_facts P rest st1 hinv1
    rcases hr : readableForest P rest st1 with ⟨newRest, st2⟩
    rw [hr] at hinv2 hext2 hcnt2 hokF2 hcovF2
    dsimp only at hinv2 hext2 hcnt2 hokF2 hcovF2 ⊢
    have hext3 : ∃ tl, st2.mapping = st.mapping ++ tl := by
      obtain ⟨tl1, h1⟩ := hext1
      obtain ⟨tl2, h2⟩ := hext2
      exact ⟨tl1 ++ tl2, by rw [h2, h1, List.append_assoc]⟩
    cases child? with
    | none => exact ⟨hinv2, hext3, le_trans hcnt1 hcnt2, hokF2, hcovF2⟩
    | some child =>
      obtain ⟨hok1, hcov1⟩ := hnode1 child rfl
      refine ⟨hinv2, hext3, le_trans hcnt1 hcnt2, ?_, ?_⟩
      · unfold amendedOkF
        rw [Bool.and_eq_true]
        exact ⟨hok1, hokF2⟩
      · unfold imgsCoveredF
        rw [Bool.and_eq_true]
        refine ⟨?_, hcovF2⟩
        exact imgsCovered_mono (manifest_keys_mono hinv1 hinv2 hext2) child hcov1
end

theorem readableRecOpt_facts (P : RParams) (n? : Option HNode) (st : RState)
    (h : Inv P st) :
    Inv P (readableRecOpt P n? st).2 ∧
    (∃ tl, (readableRecOpt P n? st).2.mapping = st.mapping ++ tl) ∧
    st.counter ≤ (readableRecOpt P n? st).2.counter ∧
    (∀ t, (readableRecOpt P n? st).1 = some t →
      amendedOk t = true ∧
      imgsCovered ((readableRecOpt P n? st).2.manifest.map Prod.fst) t = true) := by
  cases n? with
  | none =>
    exact ⟨h, ⟨[], by simp [readableRecOpt]⟩, le_rfl,
      by intro t ht; simp [readableRecOpt] at ht⟩
  | some m => exact readableRecursive_facts P m st h

theorem metaNode_ok (v : String) : amendedOk (metaNode v) = true := by
  unfold metaNode amendedOk
  simp [amendedOkF]

theorem metaNode_covered (K : List String) (v : String) :
    imgsCovered K (metaNode v) = true := by
  unfold metaNode imgsCovered
  simp [imgsCoveredF]

theorem headWithMetas_ok (O : Oracles) (bu : Option String)
    (head? : Option HNode)
    (hok : ∀ t, head? = some t → amendedOk t = true) :
    amendedOk (headWithMetas O bu head?) = true := by
  unfold headWithMetas
  dsimp only
  have h0 : amendedOk (head?.getD (.elem "head" "head" [] .nil)) = true := by
    cases hh : head? with
    | none => decide
    | some t => exact hok t hh
  have h1 := amendedOk_appendChild h0 (metaNode_ok
    "generated-by: https://pkg.go.dev/go.yhsif.com/url2epub#Node.Readable")
  have h2 := amendedOk_appendChild h1 (metaNode_ok ("generated-at: " ++ O.now))
  cases bu with
  | none => exact h2
  | some b => exact amendedOk_appendChild h2 (metaNode_ok ("generated-from: " ++ b))

theorem headWithMetas_covered (K : List String) (O : Oracles)
    (bu : Option String) (head? : Option HNode)
    (hcov : ∀ t, head? = some t → imgsCovered K t = true) :
    imgsCovered K (headWithMetas O bu head?) = true := by
  unfold headWithMetas
  dsimp only
  have h0 : imgsCovered K (head?.getD (.elem "head" "head" [] .nil)) = true := by
    cases hh : head? with
    | none => simp [imgsCovered, imgsCoveredF]
    | some t => exact hcov t hh
  have h1 := imgsCovered_appendChild h0 (metaNode_covered K
    "generated-by: https://pkg.go.dev/go.yhsif.com/url2epub#Node.Readable")
  have h2 := imgsCovered_appendChild h1 (metaNode_covered K ("generated-at: " ++ O.now))
  cases bu with
  | none => exact h2
  | some b =>
    exact imgsCovered_appendChild h2 (metaNode_covered K ("generated-from: " ++ b))

theorem readableFinish_ok {K : List String} (n head body : HNode) (st : RState)
    (hK : K = st.manifest.map Prod.fst)
    (hheadOk : amendedOk head = true) (hbodyOk : amendedOk body = true)
    (hheadCov : imgsCovered K head = true) (hbodyCov : imgsCovered K body = true) :
    ∀ root, (readableFinish n head body st).node = some root →
      amendedOk root = true ∧
      imgsCovered ((readableFinish n head body st).state.manifest.map Prod.fst)
        root = true := by
  intro root hroot
  unfold readableFinish at hroot ⊢
  dsimp only at hroot ⊢
  injection hroot with hroot2
  subst hroot2
  constructor
  · unfold amendedOk
    rw [Bool.and_eq_true]
    constructor
    · have hhtml : atoms "html" = some ["lang"] := by decide
      simp only [if_neg (by decide : ¬("html" = "img")),
        if_neg (by decide : ¬("html" = "meta")), hhtml]
      by_cases hl : getLang n ≠ ""
      · rw [if_pos hl]; simp
      · rw [if_neg hl]; decide
    · unfold amendedOkF
      rw [Bool.and_eq_true]
      refine ⟨hheadOk, ?_⟩
      unfold amendedOkF
      rw [Bool.and_eq_true]
      exact ⟨hbodyOk, rfl⟩
  · unfold imgsCovered
    rw [Bool.and_eq_true]
    constructor
    · rw [if_neg (by decide : ¬("html" = "img"))]
    · unfold imgsCoveredF
      rw [Bool.and_eq_true]
      subst hK
      refine ⟨hheadCov, ?_⟩
      unfold imgsCoveredF
      rw [Bool.and_eq_true]
      exact ⟨hbodyCov, rfl⟩

/-- Combined facts about one `Readable` run: the final state satisfies the
invariant; a returned root satisfies the amended whitelist property and
refers only to manifest keys in its `img` `src` values; and on success the
returned images map is the manifest with never-assigned cells replaced by
empty byte sources. -/
theorem readableFull_facts (O : Oracles) (n : HNode) (args : RArgs) :
    Inv ⟨O, args.imagesDir, args.gray, args.fit⟩ (readableFull O n args).state ∧
    (∀ root, (readableFull O n args).node = some root →
      amendedOk root = true ∧
      imgsCovered ((readableFull O n args).state.manifest.map Prod.fst)
        root = true) ∧
    ((readableFull O n args).err = none →
      (readableFull O n args).images =
        (readableFull O n args).state.manifest.map (fun p => (p.1, p.2.getD []))) := by
  unfold readableFull
  dsimp only
  obtain ⟨hinv1, hext1, hcnt1, hnode1⟩ :=
    readableRecOpt_facts ⟨O, args.imagesDir, args.gray, args.fit⟩
      (findFirstAtom "head" n) ⟨0, [], []⟩ (inv_init _)
  obtain ⟨hinv2, hext2, hcnt2, hnode2⟩ :=
    readableRecOpt_facts ⟨O, args.imagesDir, args.gray, args.fit⟩
      (pickArticle n args.minArticleNodes) _ hinv1
  split
  · -- article? = none: body fallback
    rename_i heqArticle
    obtain ⟨hinv3, hext3, hcnt3, hnode3⟩ :=
      readableRecOpt_facts ⟨O, args.imagesDir, args.gray, args.fit⟩
        (findFirstAtom "body" n) _ hinv2
    split
    · -- body = none: error path
      rename_i heqBody
      rw [heqBody] at hinv3
      refine ⟨hinv3, ?_, ?_⟩
      · intro root hroot; simp at hroot
      · intro he; simp at he
    · -- body = some
      rename_i body st3 heqBody
      rw [heqBody] at hinv3 hext3 hnode3
      dsimp only at hinv3 hext3 hnode3
      obtain ⟨hbodyOk, hbodyCov⟩ := hnode3 body rfl
      refine ⟨hinv3, ?_, ?_⟩
      · refine readableFinish_ok n _ body st3 rfl ?_ ?_ ?_ ?_
        · refine headWithMetas_ok O args.baseURL _ ?_
          intro t ht
          exact (hnode1 t ht).1
        · exact hbodyOk
        · refine headWithMetas_covered _ O args.baseURL _ ?_
          intro t ht
          refine imgsCovered_mono ?_ t (hnode1 t ht).2
          refine manifest_keys_mono hinv1 hinv3 ?_
          obtain ⟨t2, h2⟩ := hext2
          obtain ⟨t3, h3⟩ := hext3
          exact ⟨t2 ++ t3, by rw [h3, h2, List.append_assoc]⟩
        · exact hbodyCov
      · intro _
        unfold readableFinish
        dsimp only
  · -- article = some
    rename_i article heqArticle
    rw [heqArticle] at hnode2
    obtain ⟨hartOk, hartCov⟩ := hnode2 article rfl
    refine ⟨hinv2, ?_, ?_⟩
    · refine readableFinish_ok n _ _ _ rfl ?_ ?_ ?_ ?_
      · refine headWithMetas_ok O args.baseURL _ ?_
        intro t ht
        exact (hnode1 t ht).1
      · unfold amendedOk
        rw [Bool.and_eq_true]
        constructor
        · simp only [if_neg (by decide : ¬("body" = "img")),
            if_neg (by decide : ¬("body" = "meta"))]
          decide
        · unfold amendedOkF
          rw [Bool.and_eq_true]
          exact ⟨hartOk, rfl⟩
      · refine headWithMetas_covered _ O args.baseURL _ ?_
        intro t ht
        refine imgsCovered_mono ?_ t (hnode1 t ht).2
        exact manifest_keys_mono hinv1 hinv2 hext2
      · unfold imgsCovered
        rw [Bool.and_eq_true]
        constructor
        · rw [if_neg (by decide : ¬("body" = "img"))]
        · unfold imgsCoveredF
          rw [Bool.and_eq_true]
          exact ⟨hartCov, rfl⟩
    · intro _
      unfold readableFinish
      dsimp only

/-! ### C1: whitelist invariant -/

/-- A document whose body holds an image that only has a `data-src`
alternative source attribute. -/
def c1doc : HNode :=
  .elem "html" "html" []
    (.cons (.elem "body" "body" []
      (.cons (.elem "img" "img" [("data-src", "a.png")] .nil) .nil)) .nil)

/-- C1 counterexample: a successful `Readable` run whose returned tree
violates the claimed invariant — the injected `<meta itemprop=...>`
provenance markers have a tag outside the `atoms` whitelist, and the
emitted `<img>` keeps its `data-src` attribute, which is not in the `img`
allow-set of the `atoms` map. -/
theorem C1_counterexample :
    ((readableFull O7 c1doc ⟨some "b", "images", false, 0, 0⟩).node.map strictOk) =
      some false ∧
    (readableFull O7 c1doc ⟨some "b", "images", false, 0, 0⟩).err = none := by
  exact ⟨rfl, rfl⟩

/-- C1 as amended: every element node in the returned readable tree either
has its tag in the whitelist with attribute keys in the per-element
allow-set, or is one of the exceptions the code itself creates: emitted
`img` elements may carry any key of the `img`/`source` allow-sets plus the
alternative source keys (`type`, `nitro-lazy-src`, `data-src` included),
and the injected `meta` provenance markers carry `itemprop`. -/
theorem C1_amended_whitelist (O : Oracles) (n : HNode) (args : RArgs)
    (root : HNode) (hroot : (readableFull O n args).node = some root) :
    amendedOk root = true :=
  ((readableFull_facts O n args).2.1 root hroot).1

/-- The root returned by the concrete C1 run. -/
def c1root : HNode :=
  (readableFull O7 c1doc ⟨some "b", "images", false, 0, 0⟩).node.getD .other

/-- C1 amended, witnessed on the concrete run. -/
theorem C1_amended_whitelist_witness : amendedOk c1root = true :=
  C1_amended_whitelist O7 c1doc ⟨some "b", "images", false, 0, 0⟩ c1root rfl

/-! ### C2: deduplication and injectivity -/

/-- C2: the mapping from absolute source URLs to local filenames built by
one `Readable` run has distinct keys (so every occurrence of the same URL
is assigned the one filename stored in the map) and distinct values
(injectivity), and the manifest keys are exactly the assigned filenames —
both in the internal state and in the returned images map. -/
theorem C2_manifest_injective (O : Oracles) (n : HNode) (args : RArgs) :
    ((readableFull O n args).state.mapping.map Prod.fst).Nodup ∧
    ((readableFull O n args).state.mapping.map Prod.snd).Nodup ∧
    (readableFull O n args).state.manifest.map Prod.fst =
      (readableFull O n args).state.mapping.map Prod.snd ∧
    ((readableFull O n args).err = none →
      (readableFull O n args).images.map Prod.fst =
        (readableFull O n args).state.mapping.map Prod.snd) := by
  obtain ⟨hinv, _, himg⟩ := readableFull_facts O n args
  refine ⟨?_, inv_values_nodup hinv, inv_manifest_keys hinv, ?_⟩
  · obtain ⟨_, _, _, _, hkeys, _⟩ := hinv
    exact hkeys
  · intro he
    rw [himg he, List.map_map, ← inv_manifest_keys hinv]
    rfl

/-- C2 witnessed: on the concrete run the returned manifest keys equal the
assigned filenames. -/
theorem C2_manifest_injective_witness :
    (readableFull O7 c1doc ⟨some "b", "images", false, 0, 0⟩).images.map Prod.fst =
      (readableFull O7 c1doc ⟨some "b", "images", false, 0, 0⟩).state.mapping.map
        Prod.snd :=
  (C2_manifest_injective O7 c1doc ⟨some "b", "images", false, 0, 0⟩).2.2.2 rfl

/-! ### C7 amended -/

theorem natCharsAux_len_le : ∀ (k fuel n : Nat), n < 10 ^ k →
    (natCharsAux fuel n).length ≤ k := by
  intro k
  induction k with
  | zero =>
    intro fuel n h
    interval_cases n
    cases fuel <;> simp [natCharsAux]
  | succ k ih =>
    intro fuel n h
    match fuel, n with
    | 0, _ => simp [natCharsAux]
    | _ + 1, 0 => simp [natCharsAux]
    | fuel + 1, m + 1 =>
      simp only [natCharsAux, List.length_cons]
      have hdiv : (m + 1) / 10 < 10 ^ k := by
        rw [Nat.div_lt_iff_lt_mul (by omega)]
        calc m + 1 < 10 ^ (k + 1) := h
        _ = 10 ^ k * 10 := by ring
      exact Nat.succ_le_succ (ih fuel _ hdiv)

theorem fmt03_len_three {c : Nat} (h : c ≤ 999) : (fmt03 c).data.length = 3 := by
  have hlen : (natChars c).length ≤ 3 := by
    unfold natChars
    by_cases h0 : c = 0
    · simp [h0]
    · rw [if_neg h0, List.length_reverse]
      exact natCharsAux_len_le 3 c c (by omega)
  unfold fmt03
  dsimp only
  rw [List.length_append, List.length_replicate]
  omega

theorem matchesC7_alloc {c : Nat} (h999 : c ≤ 999) :
    matchesC7 (fmt03 c ++ ".jpg") = true := by
  have hlen : (fmt03 c).data.length = 3 := fmt03_len_three h999
  have hdig := fmt03_digits c
  obtain ⟨x, y, z, hxyz⟩ := List.length_eq_three.mp hlen
  have hx := hdig x (by rw [hxyz]; simp)
  have hy := hdig y (by rw [hxyz]; simp)
  have hz := hdig z (by rw [hxyz]; simp)
  have hdata : (fmt03 c ++ ".jpg").data = x :: y :: z :: '.' :: ['j', 'p', 'g'] := by
    rw [String.data_append, hxyz]
    rfl
  unfold matchesC7
  rw [hdata]
  simp [hx, hy, hz]

/-- C7 as amended: the freshly allocated filename joins the imagesDir with
the `%03d`-formatted counter plus an extension that is `.jpg` when
grayscale is on and `path.Ext` of the resolved URL path otherwise (so it
can be empty, be multi-part, or be `.jpg` without grayscale); when
grayscale is enabled and at most 999 images are discovered, every manifest
key under the prefix matches `^\d{3}\.[^.]+$`. -/
theorem C7_amended_filenames (O : Oracles) (n : HNode) (args : RArgs)
    (hgray : args.gray = true)
    (hcnt : (readableFull O n args).state.counter ≤ 999) :
    ∀ f ∈ (readableFull O n args).state.manifest.map Prod.fst,
      ∃ c, 1 ≤ c ∧ c ≤ 999 ∧
        f = pathJoin args.imagesDir (fmt03 c ++ ".jpg") ∧
        matchesC7 (fmt03 c ++ ".jpg") = true := by
  obtain ⟨hinv, _, _⟩ := readableFull_facts O n args
  intro f hf
  rw [inv_manifest_keys hinv] at hf
  obtain ⟨ces, hmap, _, hbound, _, _⟩ := hinv
  rw [hmap] at hf
  rcases List.mem_map.mp hf with ⟨p, hp, hpf⟩
  obtain ⟨hb1, hb2, _, hjpg⟩ := hbound p hp
  have hje : p.2 = ".jpg" := hjpg hgray
  have hble : p.1 ≤ 999 := le_trans hb2 hcnt
  refine ⟨p.1, hb1, hble, ?_, matchesC7_alloc hble⟩
  rw [← hpf]
  unfold allocName
  rw [hje]

/-- C7 amended, witnessed on a concrete grayscale run. -/
theorem C7_amended_filenames_witness :
    ∃ c, 1 ≤ c ∧ c ≤ 999 ∧
      "images/001.jpg" = pathJoin "images" (fmt03 c ++ ".jpg") ∧
      matchesC7 (fmt03 c ++ ".jpg") = true :=
  C7_amended_filenames O7 (c7doc "a") ⟨some "b", "images", true, 0, 0⟩ rfl
    (by decide) "images/001.jpg" (by decide)

/-! ### C9: download failures are not fatal -/

/-- C9: image downloads never make `Readable` fail — its only error is the
structural "no body tag found" — and for every discovered URL `u` with
assigned filename `f`: a failed download leaves `f` bound to the empty
byte source in the returned images map, and with grayscale on, a download
whose decoding fails leaves `f` bound to the original downloaded bytes. -/
theorem C9_download_failures_not_fatal (O : Oracles) (n : HNode) (args : RArgs) :
    ((readableFull O n args).err = none ∨
      (readableFull O n args).err = some "no body tag found") ∧
    (∀ u f, (u, f) ∈ (readableFull O n args).state.mapping →
      (readableFull O n args).err = none →
      (O.fetch u = none →
        lookupA (readableFull O n args).images f = some []) ∧
      (∀ b, args.gray = true → O.fetch u = some b → O.fromReaderImg b = none →
        lookupA (readableFull O n args).images f = some b)) := by
  obtain ⟨hinv, _, himg⟩ := readableFull_facts O n args
  constructor
  · rcases readableFull_cases O n args with ⟨r, _, he⟩ | ⟨_, he, _⟩
    · exact Or.inl he
    · exact Or.inr he
  · intro u f hm herr
    have hman : ((f, downloadImage O args.gray args.fit u) ∈
        (readableFull O n args).state.manifest) := by
      obtain ⟨_, _, _, _, _, hman⟩ := hinv
      rw [hman]
      exact List.mem_map.mpr ⟨(u, f), hm, rfl⟩
    have hkeysN : ((readableFull O n args).images.map Prod.fst).Nodup := by
      rw [himg herr, List.map_map]
      have : ((readableFull O n args).state.manifest.map Prod.fst).Nodup := by
        rw [inv_manifest_keys hinv]
        exact inv_values_nodup hinv
      exact this
    have hmemImg : (f, (downloadImage O args.gray args.fit u).getD []) ∈
        (readableFull O n args).images := by
      rw [himg herr]
      exact List.mem_map.mpr ⟨_, hman, rfl⟩
    have hlook := lookupA_mem_nodup hkeysN hmemImg
    constructor
    · intro hfetch
      rw [hlook]
      unfold downloadImage
      rw [hfetch]
      rfl
    · intro b hgray hfetch hdec
      rw [hlook]
      unfold downloadImage
      rw [hfetch]
      dsimp only
      rw [hgray, hdec]
      simp

/-- C9 witnessed: on a concrete run whose downloads all fail, the single
manifest entry is the empty byte source. -/
theorem C9_download_failures_not_fatal_witness :
    lookupA (readableFull O7 (c7doc "a") ⟨some "b", "images", false, 0, 0⟩).images
      "images/001" = some [] :=
  (((C9_download_failures_not_fatal O7 (c7doc "a")
      ⟨some "b", "images", false, 0, 0⟩).2 "http://e/a" "images/001"
    (by decide) rfl).1) rfl

/-! ### C10: img src attributes and the manifest -/

/-- C10: on every successful run, every `img` element of the returned tree
carries a `src` attribute whose value is a key of the returned images map
(a `src` attribute is inserted even when the source element only had
`srcset` or alternative source attributes), and every manifest slot
appears in the returned images map bound to a concrete — never nil, at
worst empty — byte source. -/
theorem C10_img_src_manifest (O : Oracles) (n : HNode) (args : RArgs)
    (root : HNode) (hroot : (readableFull O n args).node = some root)
    (herr : (readableFull O n args).err = none) :
    imgsCovered ((readableFull O n args).images.map Prod.fst) root = true ∧
    (∀ p ∈ (readableFull O n args).state.manifest,
      (p.1, p.2.getD []) ∈ (readableFull O n args).images) := by
  obtain ⟨hinv, hnode, himg⟩ := readableFull_facts O n args
  obtain ⟨_, hcov⟩ := hnode root hroot
  constructor
  · have hkeys : (readableFull O n args).images.map Prod.fst =
        (readableFull O n args).state.manifest.map Prod.fst := by
      rw [himg herr, List.map_map]
      rfl
    rw [hkeys]
    exact hcov
  · intro p hp
    rw [himg herr]
    exact List.mem_map.mpr ⟨p, hp, rfl⟩

/-- C10 witnessed: on the concrete run whose image only had `data-src`,
the returned tree's `img` elements all carry a manifest-key `src`. -/
theorem C10_img_src_manifest_witness :
    imgsCovered ((readableFull O7 c1doc
        ⟨some "b", "images", false, 0, 0⟩).images.map Prod.fst) c1root = true :=
  (C10_img_src_manifest O7 c1doc ⟨some "b", "images", false, 0, 0⟩ c1root
    rfl rfl).1

end U2E
